import Mathlib

/-!
# waybackurlsx: a shallow embedding of `waybackurlsx.go`

Modelling conventions.

* A Go `string` / `[]byte` is a list of Unicode code points (`Str`); the program's own
  operations on strings (`strings.TrimSpace`, `strings.Fields`, `strings.Split`,
  `strings.TrimPrefix`, `url.QueryEscape`, `time.ParseDuration`, `http.Header.Get`) are
  written out as functions on such lists.
* A `time.Duration` is an `Int` number of nanoseconds; Go's `int` and `int64` arithmetic
  is two's complement on 64 bits and is written with an explicit `int64` wrap.
* The network, `http.NewRequest` and the one floating-point product inside
  `time.ParseDuration` are inputs of the model (`World`).
* The pattern of `compileSensitiveRegex` is a term of `Regex`, built alternative by
  alternative as in the source, and `regexp.MatchString` is a search with a
  backtracking matcher over that term.
* Standard output is the list of lines printed by `fmt.Println`; the messages written
  to standard error under `--verbose` are not part of the model.
-/

namespace Waybackurlsx

/-- A Go string, as the list of its code points. -/
abbrev Str := List Char

/-! ## Strings -/

/-- Go `unicode.IsSpace`: the Latin-1 white space characters and the code points with
the Unicode `White_Space` property. -/
def isSpace (c : Char) : Bool :=
  let n := c.toNat
  n == 0x09 || n == 0x0A || n == 0x0B || n == 0x0C || n == 0x0D || n == 0x20 ||
  n == 0x85 || n == 0xA0 || n == 0x1680 || (0x2000 ≤ n && n ≤ 0x200A) ||
  n == 0x2028 || n == 0x2029 || n == 0x202F || n == 0x205F || n == 0x3000

/-- Go `strings.TrimSpace`: drop leading, then trailing, white space. -/
def TrimSpace (s : Str) : Str :=
  (s.dropWhile isSpace).rdropWhile isSpace

/-- Go `strings.TrimPrefix`. -/
def TrimPrefix (s pre : Str) : Str :=
  if pre.isPrefixOf s then s.drop pre.length else s

/-- Go `strings.Split(s, sep)` for a separator of one character, the only kind the
program uses (`"/"` and `"\n"`): the pieces of `s` between occurrences of `sep`. -/
def Split : Str → Char → List Str
  | [], _ => [[]]
  | c :: cs, sep =>
    if c = sep then [] :: Split cs sep
    else
      match Split cs sep with
      | [] => [[c]]
      | x :: xs => (c :: x) :: xs

/-- The scanning loop of Go `strings.Fields`; `cur` is the field being read, reversed. -/
def fieldsFrom : Str → Str → List Str
  | cur, [] => if cur = [] then [] else [cur.reverse]
  | cur, c :: cs =>
    if isSpace c then
      if cur = [] then fieldsFrom [] cs else cur.reverse :: fieldsFrom [] cs
    else fieldsFrom (c :: cur) cs

/-- Go `strings.Fields`: the maximal runs of non-space characters, in order. -/
def Fields (s : Str) : List Str := fieldsFrom [] s

/-- The bytes of the UTF-8 encoding of a code point. -/
def utf8Bytes (c : Char) : List Nat :=
  let n := c.toNat
  if n < 0x80 then [n]
  else if n < 0x800 then [0xC0 + n / 64, 0x80 + n % 64]
  else if n < 0x10000 then [0xE0 + n / 4096, 0x80 + n / 64 % 64, 0x80 + n % 64]
  else [0xF0 + n / 262144, 0x80 + n / 4096 % 64, 0x80 + n / 64 % 64, 0x80 + n % 64]

/-- Go `net/url.shouldEscape(c, encodeQueryComponent)` on a byte: only the unreserved
characters (ASCII letters, digits, `-`, `_`, `.`, `~`) are left alone. -/
def shouldEscape (b : Nat) : Bool :=
  !((97 ≤ b && b ≤ 122) || (65 ≤ b && b ≤ 90) || (48 ≤ b && b ≤ 57) ||
    b == 45 || b == 95 || b == 46 || b == 126)

/-- The upper-case hexadecimal digit of a nibble (`"0123456789ABCDEF"[d]`). -/
def upperhex (d : Nat) : Char :=
  if d < 10 then Char.ofNat (48 + d) else Char.ofNat (55 + d)

/-- What `url.QueryEscape` writes for one byte. -/
def escapeByte (b : Nat) : Str :=
  if b = 32 then ['+']
  else if shouldEscape b then ['%', upperhex (b / 16), upperhex (b % 16)]
  else [Char.ofNat b]

/-- Go `url.QueryEscape`. -/
def QueryEscape (s : Str) : Str :=
  s.flatMap fun c => (utf8Bytes c).flatMap escapeByte

/-! ## Durations -/

/-- Go `time.Second`, in nanoseconds. -/
def Second : Int := 1000000000

/-- Two's complement wrap-around of an integer to 64 bits (Go `int`, `int64`). -/
def int64 (x : Int) : Int := (x + 2 ^ 63) % 2 ^ 64 - 2 ^ 63

/-- The argument of `time.Sleep` before a retry:
`time.Duration(attempt*attempt) * time.Second`. -/
def backoffTime (attempt : Nat) : Int :=
  int64 (int64 ((attempt : Int) * (attempt : Int)) * Second)

/-- Go `time.leadingInt`: the decimal number at the front of `s` (continuing from `x`)
and the rest of `s`; `none` when the number exceeds `1<<63`. -/
def leadingInt : Str → Nat → Option (Nat × Str)
  | [], x => some (x, [])
  | c :: cs, x =>
    if !c.isDigit then some (x, c :: cs)
    else if x > 2 ^ 63 / 10 then none
    else
      let y := x * 10 + (c.toNat - 48)
      if y > 2 ^ 63 then none else leadingInt cs y

/-- Go `time.leadingFraction`: the digits at the front of `s` as a number `x` with
`scale = 10 ^ (digits used)`, and the rest of `s`; digits beyond the capacity of
`x` are skipped. -/
def leadingFraction : Str → Nat → Nat → Bool → Nat × Nat × Str
  | [], x, scale, _ => (x, scale, [])
  | c :: cs, x, scale, overflow =>
    if !c.isDigit then (x, scale, c :: cs)
    else if overflow then leadingFraction cs x scale true
    else if x > (2 ^ 63 - 1) / 10 then leadingFraction cs x scale true
    else
      let y := x * 10 + (c.toNat - 48)
      if y > 2 ^ 63 then leadingFraction cs x scale true
      else leadingFraction cs y (scale * 10) false

/-- Go `time.unitMap`. -/
def unitMap (u : Str) : Option Nat :=
  if u = "ns".toList then some 1
  else if u = "us".toList then some 1000
  else if u = "µs".toList then some 1000
  else if u = "μs".toList then some 1000
  else if u = "ms".toList then some 1000000
  else if u = "s".toList then some 1000000000
  else if u = "m".toList then some 60000000000
  else if u = "h".toList then some 3600000000000
  else none

/-- A character that ends a unit name inside a duration: `.` or a digit. -/
def endsUnit (c : Char) : Bool := c == '.' || c.isDigit

/-- The step `Consume (\.[0-9]*)?` of Go `time.ParseDuration`: the fraction `f`, its
`scale`, the rest of the string, and whether a digit followed the point. -/
def fractionPart (s1 : Str) : Nat × Nat × Str × Bool :=
  match s1 with
  | '.' :: r =>
    let (f, scale, s2) := leadingFraction r 0 1 false
    (f, scale, s2, r.length != s2.length)
  | _ => (0, 1, s1, false)

/-- The main loop of Go `time.ParseDuration` (`for s != ""`), summing the terms
`<number><unit>` of `s` into `d` (a `uint64`). Every round removes at least one
character, so `fuel = s.length` rounds are enough. `fmul f unit scale` stands for the
floating-point expression `uint64(float64(f) * (float64(unit) / scale))`. -/
def parseTerms (fmul : Nat → Nat → Nat → Nat) : Nat → Str → Nat → Option Nat
  | _, [], d => some d
  | 0, _ :: _, _ => none
  | fuel + 1, c :: cs, d =>
    if !(c == '.' || c.isDigit) then none
    else
      match leadingInt (c :: cs) 0 with
      | none => none
      | some (v, s1) =>
        let pre := (c :: cs).length != s1.length
        let f := (fractionPart s1).1
        let scale := (fractionPart s1).2.1
        let s2 := (fractionPart s1).2.2.1
        let post := (fractionPart s1).2.2.2
        if !pre && !post then none
        else
          let u := s2.takeWhile fun x => !endsUnit x
          let s3 := s2.dropWhile fun x => !endsUnit x
          if u = [] then none
          else
            match unitMap u with
            | none => none
            | some unit =>
              if v > 2 ^ 63 / unit then none
              else
                let v1 := v * unit
                let v2 := if f > 0 then (v1 + fmul f unit scale) % 2 ^ 64 else v1
                if f > 0 && v2 > 2 ^ 63 then none
                else
                  let d1 := (d + v2) % 2 ^ 64
                  if d1 > 2 ^ 63 then none else parseTerms fmul fuel s3 d1

/-- The step `Consume [-+]?` of Go `time.ParseDuration`: whether the duration is
negative, and the string after the sign. -/
def signPart (s : Str) : Bool × Str :=
  match s with
  | '-' :: r => (true, r)
  | '+' :: r => (false, r)
  | _ => (false, s)

/-- Go `time.ParseDuration`: `some d` for a duration of `d` nanoseconds, `none` for
an error. -/
def ParseDuration (fmul : Nat → Nat → Nat → Nat) (s : Str) : Option Int :=
  let neg := (signPart s).1
  let s1 := (signPart s).2
  if s1 = ['0'] then some 0
  else if s1 = [] then none
  else
    match parseTerms fmul s1.length s1 0 with
    | none => none
    | some d =>
      if neg then some (int64 (-(int64 d)))
      else if d > 2 ^ 63 - 1 then none
      else some (int64 d)

/-! ## HTTP headers and the rate controller -/

/-- Go `http.Header` (`map[string][]string`): the values stored under each key, `[]`
for a key that is absent. -/
abbrev Header := Str → List Str

/-- Go `textproto.validHeaderFieldByte`: the token characters of RFC 7230. -/
def validHeaderFieldByte (c : Char) : Bool :=
  c.isAlphanum || [33, 35, 36, 37, 38, 39, 42, 43, 45, 46, 94, 95, 96, 124, 126].contains c.toNat

/-- The rewriting step of Go `textproto.canonicalMIMEHeaderKey`: upper case for the
first letter and after each `-`, lower case elsewhere. -/
def canonicalLetters : Bool → Str → Str
  | _, [] => []
  | upper, c :: cs =>
    let c1 := if upper then c.toUpper else c.toLower
    c1 :: canonicalLetters (c1 == '-') cs

/-- Go `textproto.CanonicalMIMEHeaderKey`; a key with a character that is not
allowed in a header name is returned unchanged. -/
def CanonicalMIMEHeaderKey (s : Str) : Str :=
  if s.all validHeaderFieldByte then canonicalLetters true s else s

/-- Go `http.Header.Get`: the first value under the canonical form of `key`, or `""`. -/
def Header.Get (h : Header) (key : Str) : Str :=
  match h (CanonicalMIMEHeaderKey key) with
  | [] => []
  | v :: _ => v

/-- The mutable part of `WaybackClient`: `limiter` is the interval last handed to
`rate.Every` for the limiter, `lastRate` the field of that name. -/
structure WaybackClient where
  limiter : Int
  lastRate : Int
deriving DecidableEq, Repr

/-- `NewWaybackClient`: one request per second. -/
def NewWaybackClient : WaybackClient :=
  { limiter := 1 * Second, lastRate := 1 * Second }

/-- `WaybackClient.AdjustRate`. -/
def AdjustRate (fmul : Nat → Nat → Nat → Nat) (w : WaybackClient) (header : Header) :
    WaybackClient :=
  let retryAfter := header.Get "Retry-After".toList
  let parsed : Option Int :=
    if retryAfter ≠ [] then ParseDuration fmul (retryAfter ++ "s".toList) else none
  match parsed with
  | some seconds =>
    let newRate := seconds
    if newRate > w.lastRate then { limiter := newRate, lastRate := newRate } else w
  | none =>
    let remaining := header.Get "X-RateLimit-Remaining".toList
    if remaining ≠ [] then
      if remaining = "0".toList ∨ remaining = "1".toList then
        let newRate := 5 * Second
        { limiter := newRate, lastRate := newRate }
      else w
    else w

/-! ## The sensitivity classifier -/

/-- `buildCDXURL`. -/
def buildCDXURL (domain : Str) (searchType : Str) : Str :=
  let encodedDomain := QueryEscape domain
  if searchType = "domain".toList then
    "http://web.archive.org/cdx/search/cdx?url=".toList ++ encodedDomain ++
      "/*&output=text&fl=timestamp,original&collapse=urlkey".toList
  else
    "http://web.archive.org/cdx/search/cdx?url=*.".toList ++ encodedDomain ++
      "/*&output=text&fl=timestamp,original&collapse=urlkey".toList

/-! ## Processing one domain -/

/-- The fields of `Config` that `processDomainWithRetries` reads (`verbose` only
changes what is written to standard error). `sensitiveRegex` is the compiled
pattern as its `MatchString` function, `none` for a nil pointer. -/
structure Config where
  searchType : Str
  onlySensitive : Bool
  retries : Nat
  verbose : Bool
  sensitiveRegex : Option (Str → Bool)

/-- What one call of `client.Do` followed by `io.ReadAll` can give: an error from
`Do`, or a response with its status code, its headers, the bytes `ReadAll` returned
and whether `ReadAll` reported an error. -/
inductive DoResult where
  | err : DoResult
  | resp (statusCode : Int) (header : Header) (body : Str) (readErr : Bool) : DoResult

/-- The surroundings of the program. -/
structure World where
  /-- The floating-point product of `time.ParseDuration`, see `parseTerms`. -/
  fmul : Nat → Nat → Nat → Nat
  /-- Whether `http.NewRequest("GET", url, nil)` succeeds. -/
  newRequest : Str → Bool
  /-- The result of the `attempt`-th request for `url`. -/
  transport : Str → Nat → DoResult

/-- The observable effects of processing one domain. -/
structure Trace where
  /-- The rate controller. -/
  client : WaybackClient
  /-- The URLs handed to `client.Do`, in order. -/
  requests : List Str
  /-- The arguments of `time.Sleep`, in order. -/
  sleeps : List Int
  /-- The lines printed on standard output, in order. -/
  stdout : List Str

/-- How the retry loop is left: by `break` or a false loop condition, with the
current `body`, or by a `return` out of the function. -/
inductive LoopExit where
  | done (body : Str) : LoopExit
  | returned : LoopExit

/-- The loop `for attempt := 1; attempt <= config.retries; attempt++` of
`processDomainWithRetries`, started at `attempt` with the effects `t` so far and
the variable `body`. `fuel` bounds the number of rounds; `none` means it ran out. -/
def retryLoop (w : World) (config : Config) (cdxURL : Str) :
    Nat → Nat → Trace → Str → Option (Trace × LoopExit)
  | 0, _, _, _ => none
  | fuel + 1, attempt, t, body =>
    if attempt ≤ config.retries then
      if !w.newRequest cdxURL then some (t, LoopExit.returned)
      else
        let t1 := { t with requests := t.requests ++ [cdxURL] }
        match w.transport cdxURL attempt with
        | DoResult.err =>
          if attempt < config.retries then
            retryLoop w config cdxURL fuel (attempt + 1)
              { t1 with sleeps := t1.sleeps ++ [backoffTime attempt] } body
          else some (t1, LoopExit.returned)
        | DoResult.resp statusCode header data readErr =>
          let t2 := { t1 with client := AdjustRate w.fmul t1.client header }
          if statusCode ≠ 200 then
            if attempt < config.retries ∧ (statusCode ≥ 500 ∨ statusCode = 429) then
              retryLoop w config cdxURL fuel (attempt + 1)
                { t2 with sleeps := t2.sleeps ++ [backoffTime attempt] } body
            else some (t2, LoopExit.returned)
          else if readErr then
            if attempt < config.retries then
              retryLoop w config cdxURL fuel (attempt + 1)
                { t2 with sleeps := t2.sleeps ++ [backoffTime attempt] } data
            else some (t2, LoopExit.returned)
          else some (t2, LoopExit.done data)
    else some (t, LoopExit.done body)

/-- The playback URL `fmt.Sprintf("https://web.archive.org/web/%s/%s", ...)`. -/
def waybackURL (timestamp originalURL : Str) : Str :=
  "https://web.archive.org/web/".toList ++ timestamp ++ "/".toList ++ originalURL

/-- The loop `for _, line := range lines` of `processDomainWithRetries`: `out` is
standard output so far. -/
def emitLines (config : Config) : List Str → List Str → List Str
  | [], out => out
  | line :: rest, out =>
    let line1 := TrimSpace line
    if line1 = [] then emitLines config rest out
    else
      let parts := Fields line1
      if parts.length ≠ 2 then emitLines config rest out
      else
        let timestamp := parts.getD 0 []
        let originalURL := parts.getD 1 []
        if config.onlySensitive then
          match config.sensitiveRegex with
          | some re =>
            if re originalURL then
              emitLines config rest (out ++ [waybackURL timestamp originalURL])
            else emitLines config rest out
          | none => emitLines config rest out
        else emitLines config rest (out ++ [waybackURL timestamp originalURL])

/-- The normalisation of the input line at the head of `processDomainWithRetries`:
trim, remove the scheme, keep what precedes the first `/`. -/
def normalizeDomain (domain : Str) : Str :=
  let d1 := TrimSpace domain
  let d2 := TrimPrefix d1 "http://".toList
  let d3 := TrimPrefix d2 "https://".toList
  (Split d3 '/').headD []

/-- `processDomainWithRetries`: the effects of processing the input line `domain`
with the rate controller `client`; `none` only if the loop ran out of fuel. -/
def processDomainWithRetries (w : World) (config : Config) (client : WaybackClient)
    (domain : Str) : Option Trace :=
  let t0 : Trace := { client := client, requests := [], sleeps := [], stdout := [] }
  if TrimSpace domain = [] then some t0
  else
    let cdxURL := buildCDXURL (normalizeDomain domain) config.searchType
    match retryLoop w config cdxURL (config.retries + 1) 1 t0 [] with
    | none => none
    | some (t, LoopExit.returned) => some t
    | some (t, LoopExit.done body) =>
      some { t with stdout := emitLines config (Split body '\n') t.stdout }

/-! ## Vocabulary of the specification and concrete inputs -/

/-- A retryable failure of one attempt, in the words of the specification: a
transport error, a response with status `>= 500` or `== 429`, or a failure to read
the body after status 200. -/
def retryableFailure : DoResult → Bool
  | DoResult.err => true
  | DoResult.resp statusCode _ _ readErr =>
    decide (statusCode ≥ 500) || decide (statusCode = 429) ||
      (decide (statusCode = 200) && readErr)

/-- The rate controller after one attempt: adjusted from the headers of a response,
untouched by a transport error. -/
def adjustAfter (fmul : Nat → Nat → Nat → Nat) (c : WaybackClient) : DoResult → WaybackClient
  | DoResult.err => c
  | DoResult.resp _ header _ _ => AdjustRate fmul c header

/-- The rate controller after the `k` attempts numbered `a`, `a + 1`, ... -/
def clientAfter (w : World) (url : Str) : Nat → Nat → WaybackClient → WaybackClient
  | _, 0, c => c
  | a, k + 1, c => clientAfter w url (a + 1) k (adjustAfter w.fmul c (w.transport url a))

/-- The attempts that leave `processDomainWithRetries` by a `return`: a transport
error or an unreadable body when no attempt remains, and a status other than 200
unless it is retried (attempts remain and the status is `>= 500` or `429`). -/
def returnsAt (retries attempt : Nat) : DoResult → Prop
  | DoResult.err => ¬ attempt < retries
  | DoResult.resp statusCode _ _ readErr =>
    (statusCode ≠ 200 ∧ ¬ (attempt < retries ∧ (statusCode ≥ 500 ∨ statusCode = 429))) ∨
    (statusCode = 200 ∧ readErr = true ∧ ¬ attempt < retries)

/-- The exact value of the product that `time.ParseDuration` computes in floating
point; used where a concrete `World` is needed. -/
def fmulExact (f unit scale : Nat) : Nat := f * unit / scale

/-- A header set without any header. -/
def noHeaders : Header := fun _ => []

/-- A header set with the single header `key: value`. -/
def oneHeader (key value : Str) : Header :=
  fun k => if k = CanonicalMIMEHeaderKey key then [value] else []

/-- A configuration: wildcard search, no filtering, the given retry ceiling. -/
def plainConfig (retries : Nat) : Config :=
  { searchType := "wildcard".toList, onlySensitive := false, retries := retries,
    verbose := false, sensitiveRegex := none }

/-- The body of the specification's parser example. -/
def sampleBody : Str :=
  "20200101000000 http://a.com/x\nbadline\n20200102000000 http://a.com/y\n".toList

/-- A world whose transport fails `k` times and then answers 200 with `body`. -/
def failThenOk (k : Nat) (body : Str) : World where
  fmul := fmulExact
  newRequest := fun _ => true
  transport := fun _ attempt =>
    if attempt ≤ k then DoResult.err else DoResult.resp 200 noHeaders body false

/-- A world whose transport always answers with the given status and body. -/
def alwaysStatus (statusCode : Int) (body : Str) : World where
  fmul := fmulExact
  newRequest := fun _ => true
  transport := fun _ _ => DoResult.resp statusCode noHeaders body false

/-- A world whose transport always fails. -/
def alwaysErr : World where
  fmul := fmulExact
  newRequest := fun _ => true
  transport := fun _ _ => DoResult.err

/-- The squares `1^2, 2^2, ..., k^2` in seconds, as durations. -/
def squareSeconds (k : Nat) : List Int :=
  (List.range k).map fun (i : Nat) => ((i : Int) + 1) ^ 2 * Second

/-- The header name of the server's `Retry-After` suggestion. -/
def retryAfterKey : Str := "Retry-After".toList

/-- The header name of the remaining-quota indication. -/
def remainingKey : Str := "X-RateLimit-Remaining".toList

/-- A header set with the two headers `key1: value1` and `key2: value2`. -/
def twoHeaders (key1 value1 key2 value2 : Str) : Header :=
  fun k =>
    if k = CanonicalMIMEHeaderKey key1 then [value1]
    else if k = CanonicalMIMEHeaderKey key2 then [value2]
    else []

/-- The number written by the decimal digits `ds`, read after the digits that gave `x`. -/
def decimalFrom (x : Nat) (ds : Str) : Nat :=
  ds.foldl (fun acc c => acc * 10 + (c.toNat - 48)) x

/-- The number written by the decimal digits `ds`. -/
def decimalValue (ds : Str) : Nat := decimalFrom 0 ds

/-- The characters that query percent-encoding leaves alone, in the words of the
specification: letters, digits, `.`, `-`, `_`, `~`. -/
def unreserved (c : Char) : Bool :=
  c.isAlphanum || c == '.' || c == '-' || c == '_' || c == '~'

/-- The upper-case hexadecimal digit of `n`, read off the table of digits. -/
def hexUpper (n : Nat) : Char := "0123456789ABCDEF".toList.getD n '0'

/-- Query percent-encoding of one byte, in the words of the specification: an
unreserved character (letter, digit, `.`, `-`, `_`, `~`) stands for itself, a space
is written `+`, and any other byte is written `%` followed by its two upper-case
hexadecimal digits. -/
def percentEncodeByte (b : Nat) : Str :=
  if unreserved (Char.ofNat b) then [Char.ofNat b]
  else if b = 32 then ['+']
  else ['%', hexUpper (b / 16), hexUpper (b % 16)]

/-- Query percent-encoding of a string, in the words of the specification: each
byte of the UTF-8 encoding of the string (as the Lean library computes it) is
percent-encoded. -/
def percentEncode (d : Str) : Str :=
  d.flatMap fun c => ((String.utf8EncodeChar c).map UInt8.toNat).flatMap percentEncodeByte

/-- The characters of a bare host, in the words of the specification: letters,
digits, `.` and `-`. -/
def hostChar (c : Char) : Bool := c.isAlphanum || c == '.' || c == '-'

/-- A character other than `:` and `/`. -/
def notSeparator (c : Char) : Bool := !(c == ':' || c == '/')

/-- The fields of a line in the words of the specification: split at every white
space character, keep the pieces that are not empty. -/
def specFields (line : Str) : List Str :=
  (line.splitOnP isSpace).filter fun piece => !piece.isEmpty

/-- The archive record of a line in the words of the specification: the line,
trimmed, is not blank and has exactly two fields. -/
def specRecord (line : Str) : Option (Str × Str) :=
  let trimmed := TrimSpace line
  if trimmed = [] then none
  else
    match specFields trimmed with
    | [t, u] => some (t, u)
    | _ => none

/-- The output line of a body line in the words of the specification: the playback
URL of its record, if it has one. -/
def specLine (line : Str) : Option Str :=
  (specRecord line).map fun r =>
    "https://web.archive.org/web/".toList ++ r.1 ++ "/".toList ++ r.2

/-- The output for a body in the words of the specification: the output lines of
its newline-separated lines, in order. -/
def specOutput (body : Str) : List Str :=
  (body.splitOn '\n').filterMap specLine

/-- The headers of a response, if the attempt got one. -/
def headerOf : DoResult → Option Header
  | DoResult.err => none
  | DoResult.resp _ header _ _ => some header

/-- The headers of the responses received in the first `m` attempts, in attempt
order. -/
def responseHeaders (w : World) (url : Str) (m : Nat) : List Header :=
  (List.range m).filterMap fun i => headerOf (w.transport url (i + 1))

/-- A world whose transport always answers with the given status, headers and body. -/
def alwaysResponse (statusCode : Int) (header : Header) (body : Str) : World where
  fmul := fmulExact
  newRequest := fun _ => true
  transport := fun _ _ => DoResult.resp statusCode header body false

/-- The output line of a body line under the classifier `M`, in the words of the
specification: the playback URL of its record, if it has one and `M` matches the
original URL. -/
def specSensitiveLine (M : Str → Bool) (line : Str) : Option Str :=
  (specRecord line).bind fun r =>
    if M r.2 then some ("https://web.archive.org/web/".toList ++ r.1 ++ "/".toList ++ r.2)
    else none

/-- The output for a body under the classifier `M`, in the words of the
specification. -/
def specSensitiveOutput (M : Str → Bool) (body : Str) : List Str :=
  (body.splitOn '\n').filterMap (specSensitiveLine M)

/-- A classifier for examples: the URL ends in `x`. -/
def endsInX (u : Str) : Bool := u.getLast? == some 'x'

/-- A value in the range of a 64-bit integer is not changed by the wrap. -/
theorem int64_eq_self (x : Int) (h1 : -2 ^ 63 ≤ x) (h2 : x < 2 ^ 63) : int64 x = x := by
  unfold int64
  omega

/-- Up to attempt 96038 the backoff is `attempt^2` seconds, without wrap-around. -/
theorem backoffTime_eq (a : Nat) (h : a ≤ 96038) :
    backoffTime a = ((a : Int)) ^ 2 * Second := by
  have h1 : a * a ≤ 96038 * 96038 := Nat.mul_le_mul h h
  have h2 : ((a : Int) * (a : Int)) ≤ 96038 * 96038 := by exact_mod_cast h1
  have h3 : (0 : Int) ≤ (a : Int) * (a : Int) := by positivity
  unfold backoffTime Second
  rw [int64_eq_self ((a : Int) * (a : Int)) (by omega) (by omega),
    int64_eq_self _ (by omega) (by omega)]
  ring

/-- The first `k <= 96038` backoffs are the squares in seconds. -/
theorem backoff_list_eq (k : Nat) (h : k ≤ 96038) :
    (List.range k).map (fun i => backoffTime (1 + i)) = squareSeconds k := by
  unfold squareSeconds
  apply List.map_congr_left
  intro i hi
  have hi1 : i < k := List.mem_range.mp hi
  rw [backoffTime_eq (1 + i) (by omega)]
  push_cast
  ring

/-! ## The retry loop -/

/-- The rate controller after one more attempt. -/
theorem clientAfter_succ (w : World) (url : Str) :
    ∀ (j a : Nat) (c : WaybackClient),
      clientAfter w url a (j + 1) c =
        adjustAfter w.fmul (clientAfter w url a j c) (w.transport url (a + j)) := by
  intro j
  induction j with
  | zero => intro a c; simp [clientAfter]
  | succ j ih =>
    intro a c
    rw [clientAfter, ih (a + 1), clientAfter, show a + 1 + j = a + (j + 1) by omega]

/-- The loop across `k` retryable failures that leave attempts to spare: it reaches
attempt `a + k` having made `k` requests and slept `k` times. -/
theorem retryLoop_failures (w : World) (config : Config) (url : Str)
    (hreq : w.newRequest url = true) :
    ∀ (k fuel a : Nat) (t : Trace) (body : Str),
      (∀ i, i < k → retryableFailure (w.transport url (a + i)) = true) →
      a + k ≤ config.retries →
      ∃ (t1 : Trace) (body1 : Str),
        retryLoop w config url (fuel + k) a t body = retryLoop w config url fuel (a + k) t1 body1 ∧
        t1.requests = t.requests ++ List.replicate k url ∧
        t1.sleeps = t.sleeps ++ (List.range k).map (fun i => backoffTime (a + i)) ∧
        t1.stdout = t.stdout ∧
        t1.client = clientAfter w url a k t.client := by
  intro k
  induction k with
  | zero =>
    intro fuel a t body _ _
    exact ⟨t, body, rfl, by simp, by simp, rfl, rfl⟩
  | succ k ih =>
    intro fuel a t body hfail hle
    have ha : a ≤ config.retries := by omega
    have ha1 : a < config.retries := by omega
    have h0 := hfail 0 (by omega)
    have hrest : ∀ i, i < k → retryableFailure (w.transport url (a + 1 + i)) = true := by
      intro i hi
      have := hfail (i + 1) (by omega)
      rwa [show a + (i + 1) = a + 1 + i by omega] at this
    have hfuel : fuel + (k + 1) = (fuel + k) + 1 := by omega
    rw [hfuel]
    simp only [Nat.add_zero] at h0
    cases hres : w.transport url a with
    | err =>
      obtain ⟨t1, body1, e1, e2, e3, e4, e5⟩ :=
        ih fuel (a + 1) { t with requests := t.requests ++ [url], sleeps := t.sleeps ++ [backoffTime a] } body hrest (by omega)
      refine ⟨t1, body1, ?_, ?_, ?_, ?_, ?_⟩
      · rw [retryLoop]
        simp only [ha, hreq, hres, ha1, if_true, Bool.not_true, Bool.false_eq_true, if_false]
        rw [e1, show a + 1 + k = a + (k + 1) by omega]
      · rw [e2]; simp [List.replicate_succ]
      · rw [e3]; simp [List.range_succ_eq_map, Function.comp_def, Nat.add_assoc, Nat.add_comm 1]
      · rw [e4]
      · rw [e5]; simp [clientAfter, adjustAfter, hres]
    | resp statusCode header data readErr =>
      rw [hres] at h0
      simp only [retryableFailure, Bool.or_eq_true, Bool.and_eq_true, decide_eq_true_eq] at h0
      by_cases hs : statusCode = 200
      · have hre : readErr = true := by
          rcases h0 with (h | h) | h
          · omega
          · omega
          · exact h.2
        obtain ⟨t1, body1, e1, e2, e3, e4, e5⟩ :=
          ih fuel (a + 1) { client := AdjustRate w.fmul t.client header, requests := t.requests ++ [url], sleeps := t.sleeps ++ [backoffTime a], stdout := t.stdout } data hrest (by omega)
        refine ⟨t1, body1, ?_, ?_, ?_, ?_, ?_⟩
        · rw [retryLoop]
          simp only [ha, hreq, hres, ha1, hs, hre, if_true, Bool.not_true, Bool.false_eq_true, if_false, ne_eq, not_true_eq_false]
          rw [e1, show a + 1 + k = a + (k + 1) by omega]
        · rw [e2]; simp [List.replicate_succ]
        · rw [e3]; simp [List.range_succ_eq_map, Function.comp_def, Nat.add_assoc, Nat.add_comm 1]
        · rw [e4]
        · rw [e5]; simp [clientAfter, adjustAfter, hres]
      · have hretry : statusCode ≥ 500 ∨ statusCode = 429 := by
          rcases h0 with (h | h) | h
          · exact Or.inl h
          · exact Or.inr h
          · exact absurd h.1 hs
        obtain ⟨t1, body1, e1, e2, e3, e4, e5⟩ :=
          ih fuel (a + 1) { client := AdjustRate w.fmul t.client header, requests := t.requests ++ [url], sleeps := t.sleeps ++ [backoffTime a], stdout := t.stdout } body hrest (by omega)
        refine ⟨t1, body1, ?_, ?_, ?_, ?_, ?_⟩
        · rw [retryLoop]
          simp only [ha, hreq, hres, ha1, hs, hretry, if_true, Bool.not_true, Bool.false_eq_true, if_false, ne_eq, not_false_eq_true, and_self]
          rw [e1, show a + 1 + k = a + (k + 1) by omega]
        · rw [e2]; simp [List.replicate_succ]
        · rw [e3]; simp [List.range_succ_eq_map, Function.comp_def, Nat.add_assoc, Nat.add_comm 1]
        · rw [e4]
        · rw [e5]; simp [clientAfter, adjustAfter, hres]


/-- The loop when attempt `k + 1` answers 200 with a readable body, after `k`
retryable failures. -/
theorem retryLoop_success_after_failures (w : World) (config : Config) (url : Str)
    (t : Trace) (k : Nat) (header : Header) (body : Str)
    (hreq : w.newRequest url = true) (hk : k < config.retries)
    (hfail : ∀ i, 1 ≤ i → i ≤ k → retryableFailure (w.transport url i) = true)
    (hok : w.transport url (k + 1) = DoResult.resp 200 header body false) :
    ∃ t1 : Trace,
      retryLoop w config url (config.retries + 1) 1 t [] = some (t1, LoopExit.done body) ∧
      t1.requests = t.requests ++ List.replicate (k + 1) url ∧
      t1.sleeps = t.sleeps ++ (List.range k).map (fun i => backoffTime (1 + i)) ∧
      t1.stdout = t.stdout ∧
      t1.client = clientAfter w url 1 (k + 1) t.client := by
  obtain ⟨m, hm⟩ : ∃ m, config.retries + 1 = (m + 1) + k := ⟨config.retries - k, by omega⟩
  obtain ⟨t1, body1, e1, e2, e3, e4, e5⟩ :=
    retryLoop_failures w config url hreq k (m + 1) 1 t []
      (fun i hi => hfail (1 + i) (by omega) (by omega)) (by omega)
  have hle : 1 + k ≤ config.retries := by omega
  rw [show 1 + k = k + 1 by omega] at e1 hle
  refine ⟨{ t1 with requests := t1.requests ++ [url],
                    client := AdjustRate w.fmul t1.client header }, ?_, ?_, ?_, ?_, ?_⟩
  · rw [hm, e1, retryLoop]
    simp [hle, hreq, hok]
  · simp [e2, List.replicate_succ']
  · simp [e3]
  · simp [e4]
  · simp only [e5]
    rw [clientAfter_succ w url k 1 t.client, show 1 + k = k + 1 by omega, hok]
    rfl

/-- The loop when attempt `k + 1` ends it by a `return`: a response that is not
retried there, after `k` retryable failures. -/
theorem retryLoop_returns_after_failures (w : World) (config : Config) (url : Str)
    (t : Trace) (k : Nat) (r : DoResult)
    (hreq : w.newRequest url = true) (hk : k < config.retries)
    (hfail : ∀ i, 1 ≤ i → i ≤ k → retryableFailure (w.transport url i) = true)
    (hr : w.transport url (k + 1) = r)
    (hstop : returnsAt config.retries (k + 1) r) :
    ∃ t1 : Trace,
      retryLoop w config url (config.retries + 1) 1 t [] = some (t1, LoopExit.returned) ∧
      t1.requests = t.requests ++ List.replicate (k + 1) url ∧
      t1.sleeps = t.sleeps ++ (List.range k).map (fun i => backoffTime (1 + i)) ∧
      t1.stdout = t.stdout ∧
      t1.client = clientAfter w url 1 (k + 1) t.client := by
  obtain ⟨m, hm⟩ : ∃ m, config.retries + 1 = (m + 1) + k := ⟨config.retries - k, by omega⟩
  obtain ⟨t1, body1, e1, e2, e3, e4, e5⟩ :=
    retryLoop_failures w config url hreq k (m + 1) 1 t []
      (fun i hi => hfail (1 + i) (by omega) (by omega)) (by omega)
  have hle : 1 + k ≤ config.retries := by omega
  rw [show 1 + k = k + 1 by omega] at e1 hle
  have hcl : clientAfter w url 1 (k + 1) t.client = adjustAfter w.fmul t1.client r := by
    rw [clientAfter_succ w url k 1 t.client, show 1 + k = k + 1 by omega, hr, e5]
  cases r with
  | err =>
    simp only [returnsAt] at hstop
    refine ⟨{ t1 with requests := t1.requests ++ [url] }, ?_, ?_, ?_, ?_, ?_⟩
    · rw [hm, e1, retryLoop]
      simp [hle, hreq, hr, hstop]
    · simp [e2, List.replicate_succ']
    · simp [e3]
    · simp [e4]
    · rw [hcl]; rfl
  | resp statusCode header data readErr =>
    simp only [returnsAt] at hstop
    refine ⟨{ t1 with requests := t1.requests ++ [url],
                      client := AdjustRate w.fmul t1.client header }, ?_, ?_, ?_, ?_, ?_⟩
    · rw [hm, e1, retryLoop]
      rcases hstop with ⟨h1, h2⟩ | ⟨h1, h2, h3⟩
      · simp [hle, hreq, hr, h1, h2]
      · simp [hle, hreq, hr, h1, h2, h3]
    · simp [e2, List.replicate_succ']
    · simp [e3]
    · simp [e4]
    · rw [hcl]; rfl

/-! ## Processing one domain: the retry orchestrator (C1, C3, C4, C5) -/

/-- When the loop is left with a body, the lines of that body are printed. -/
theorem process_of_done (w : World) (config : Config) (client : WaybackClient) (domain : Str)
    (t1 : Trace) (body : Str) (hdom : TrimSpace domain ≠ [])
    (h : retryLoop w config (buildCDXURL (normalizeDomain domain) config.searchType)
      (config.retries + 1) 1 { client := client, requests := [], sleeps := [], stdout := [] } []
        = some (t1, LoopExit.done body)) :
    processDomainWithRetries w config client domain =
      some { t1 with stdout := emitLines config (Split body '\n') t1.stdout } := by
  unfold processDomainWithRetries
  simp only [hdom, if_false, h]

/-- When the loop is left by a `return`, nothing more happens. -/
theorem process_of_returned (w : World) (config : Config) (client : WaybackClient) (domain : Str)
    (t1 : Trace) (hdom : TrimSpace domain ≠ [])
    (h : retryLoop w config (buildCDXURL (normalizeDomain domain) config.searchType)
      (config.retries + 1) 1 { client := client, requests := [], sleeps := [], stdout := [] } []
        = some (t1, LoopExit.returned)) :
    processDomainWithRetries w config client domain = some t1 := by
  unfold processDomainWithRetries
  simp only [hdom, if_false, h]

/-- C1 (amended): for every retry ceiling `n >= 1` and every `k < n` with
`k <= 96038`, if each of the first `k` attempts is a retryable failure and attempt
`k + 1` answers 200 with a readable body, then processing the domain makes exactly
`k + 1` requests, sleeps exactly `k` times, for `1^2, 2^2, ..., k^2` seconds in that
order, and prints the records of that body. -/
theorem C1_success_after_failures (w : World) (config : Config) (client : WaybackClient)
    (domain : Str) (k : Nat) (header : Header) (body : Str)
    (hdom : TrimSpace domain ≠ [])
    (hreq : w.newRequest (buildCDXURL (normalizeDomain domain) config.searchType) = true)
    (hk : k < config.retries) (hbound : k ≤ 96038)
    (hfail : ∀ i, 1 ≤ i → i ≤ k → retryableFailure
      (w.transport (buildCDXURL (normalizeDomain domain) config.searchType) i) = true)
    (hok : w.transport (buildCDXURL (normalizeDomain domain) config.searchType) (k + 1)
      = DoResult.resp 200 header body false) :
    ∃ t : Trace,
      processDomainWithRetries w config client domain = some t ∧
      t.requests.length = k + 1 ∧
      t.sleeps = squareSeconds k ∧
      t.stdout = emitLines config (Split body '\n') [] := by
  obtain ⟨t1, e0, e1, e2, e3, _⟩ :=
    retryLoop_success_after_failures w config _
      { client := client, requests := [], sleeps := [], stdout := [] } k header body hreq hk hfail hok
  refine ⟨_, process_of_done w config client domain t1 body hdom e0, ?_, ?_, ?_⟩
  · simp [e1]
  · simp [e2, backoff_list_eq k hbound]
  · simp [e3]

/-- C1, the specification's example: a transport that fails twice and then
succeeds, with `maxAttempts = 3`, gives three requests, sleeps of 1s then 4s, and the
records of the body. -/
theorem C1_success_after_failures_witness :
    ∃ t : Trace,
      processDomainWithRetries (failThenOk 2 sampleBody) (plainConfig 3) NewWaybackClient
        "example.com".toList = some t ∧
      t.requests.length = 2 + 1 ∧
      t.sleeps = [1 * Second, 4 * Second] ∧
      t.stdout = emitLines (plainConfig 3) (Split sampleBody '\n') [] :=
  C1_success_after_failures (failThenOk 2 sampleBody) (plainConfig 3) NewWaybackClient
    "example.com".toList 2 noHeaders sampleBody (by decide) (by decide) (by decide) (by decide)
    (by intro i h1 h2; interval_cases i <;> decide) rfl

/-- C1 as stated fails for large `k`: with `n = 96040` and `k = 96039` failures
before the success, the last backoff `time.Duration(96039*96039) * time.Second`
wraps around in 64 bits to a negative duration, so the sleeps are not
`1^2, ..., k^2` seconds. -/
theorem C1_counterexample :
    96039 < (plainConfig 96040).retries ∧
    (∀ i, 1 ≤ i → i ≤ 96039 → retryableFailure ((failThenOk 96039 []).transport
      (buildCDXURL (normalizeDomain "example.com".toList) (plainConfig 96040).searchType) i) = true) ∧
    (failThenOk 96039 []).transport
      (buildCDXURL (normalizeDomain "example.com".toList) (plainConfig 96040).searchType) (96039 + 1)
        = DoResult.resp 200 noHeaders [] false ∧
    ∃ t : Trace,
      processDomainWithRetries (failThenOk 96039 []) (plainConfig 96040) NewWaybackClient
        "example.com".toList = some t ∧
      t.requests.length = 96039 + 1 ∧
      t.sleeps ≠ squareSeconds 96039 ∧
      t.sleeps.getLast? = some (-9223254552709551616) := by
  have hfail : ∀ i, 1 ≤ i → i ≤ 96039 → retryableFailure ((failThenOk 96039 []).transport
      (buildCDXURL (normalizeDomain "example.com".toList) (plainConfig 96040).searchType) i) = true := by
    intro i _ h2
    simp [failThenOk, h2, retryableFailure]
  have hok : (failThenOk 96039 []).transport
      (buildCDXURL (normalizeDomain "example.com".toList) (plainConfig 96040).searchType) (96039 + 1)
        = DoResult.resp 200 noHeaders [] false := by
    simp [failThenOk]
  refine ⟨by decide, hfail, hok, ?_⟩
  obtain ⟨t1, e0, e1, e2, e3, _⟩ :=
    retryLoop_success_after_failures (failThenOk 96039 []) (plainConfig 96040) _
      { client := NewWaybackClient, requests := [], sleeps := [], stdout := [] } 96039 noHeaders []
      rfl (by decide) hfail hok
  refine ⟨_, process_of_done _ _ _ _ t1 [] (by decide) e0, ?_, ?_, ?_⟩
  · show t1.requests.length = 96039 + 1
    rw [e1, List.nil_append, List.length_replicate]
  · simp only [e2, List.nil_append, squareSeconds]
    intro h
    have h1 := (List.map_inj_left.mp h) 96038 (List.mem_range.mpr (by decide))
    revert h1
    decide
  · show t1.sleeps.getLast? = _
    rw [e2, List.nil_append, show (96039 : Nat) = 96038 + 1 from rfl, List.range_succ,
      List.map_append, List.map_singleton, List.getLast?_concat]
    decide

/-- C3 (amended): an attempt whose response has status exactly 200 and whose body
is read without error is a success: the loop ends there and the records of that
body are printed. Any other 2xx status (201 to 299) is a failure that is not
retried: processing ends at that attempt, without a further request or sleep and
without output. -/
theorem C3_only_200_is_success (w : World) (config : Config) (client : WaybackClient)
    (domain : Str) (k : Nat) (statusCode : Int) (header : Header) (body : Str)
    (hdom : TrimSpace domain ≠ [])
    (hreq : w.newRequest (buildCDXURL (normalizeDomain domain) config.searchType) = true)
    (hk : k < config.retries)
    (hfail : ∀ i, 1 ≤ i → i ≤ k → retryableFailure
      (w.transport (buildCDXURL (normalizeDomain domain) config.searchType) i) = true)
    (hresp : w.transport (buildCDXURL (normalizeDomain domain) config.searchType) (k + 1)
      = DoResult.resp statusCode header body false) :
    (statusCode = 200 →
      ∃ t : Trace, processDomainWithRetries w config client domain = some t ∧
        t.requests.length = k + 1 ∧ t.stdout = emitLines config (Split body '\n') []) ∧
    (200 ≤ statusCode → statusCode ≤ 299 → statusCode ≠ 200 →
      ∃ t : Trace, processDomainWithRetries w config client domain = some t ∧
        t.requests.length = k + 1 ∧ t.sleeps.length = k ∧ t.stdout = []) := by
  constructor
  · intro hs
    subst hs
    obtain ⟨t1, e0, e1, _, e3, _⟩ :=
      retryLoop_success_after_failures w config _
        { client := client, requests := [], sleeps := [], stdout := [] } k header body
        hreq hk hfail hresp
    exact ⟨_, process_of_done w config client domain t1 body hdom e0, by simp [e1], by simp [e3]⟩
  · intro h1 h2 h3
    obtain ⟨t1, e0, e1, e2, e3, _⟩ :=
      retryLoop_returns_after_failures w config _
        { client := client, requests := [], sleeps := [], stdout := [] } k _
        hreq hk hfail hresp (Or.inl ⟨h3, by omega⟩)
    exact ⟨_, process_of_returned w config client domain t1 hdom e0, by simp [e1], by simp [e2],
      by simp [e3]⟩

/-- C3, an instance: a first response with status 200 is a success. -/
theorem C3_only_200_is_success_witness :
    (∃ t : Trace, processDomainWithRetries (alwaysStatus 200 sampleBody) (plainConfig 3)
        NewWaybackClient "example.com".toList = some t ∧
        t.requests.length = 0 + 1 ∧
        t.stdout = emitLines (plainConfig 3) (Split sampleBody '\n') []) :=
  (C3_only_200_is_success (alwaysStatus 200 sampleBody) (plainConfig 3) NewWaybackClient
    "example.com".toList 0 200 noHeaders sampleBody (by decide) (by decide) (by decide)
    (by intro i h1 h2; omega) rfl).1 rfl

/-- C3 as stated fails for status 204: the body is readable and holds two records,
yet the single attempt ends processing and nothing is printed. -/
theorem C3_counterexample :
    (alwaysStatus 204 sampleBody).transport
      (buildCDXURL (normalizeDomain "example.com".toList) (plainConfig 3).searchType) 1
        = DoResult.resp 204 noHeaders sampleBody false ∧
    emitLines (plainConfig 3) (Split sampleBody '\n') [] ≠ [] ∧
    (processDomainWithRetries (alwaysStatus 204 sampleBody) (plainConfig 3) NewWaybackClient
      "example.com".toList).map (fun t => (t.requests.length, t.sleeps, t.stdout))
        = some (1, [], []) := by
  refine ⟨rfl, by decide, by decide⟩

/-- C4: for every retry ceiling and every status that is not 2xx, is below 500 and
is not 429, a response with that status at attempt `k + 1` (reached after `k`
retryable failures) ends processing at once: `k + 1` requests in all, no sleep
besides the `k` that preceded the attempt, and no output. -/
theorem C4_fatal_status_ends_processing (w : World) (config : Config) (client : WaybackClient)
    (domain : Str) (k : Nat) (statusCode : Int) (header : Header) (body : Str) (readErr : Bool)
    (hdom : TrimSpace domain ≠ [])
    (hreq : w.newRequest (buildCDXURL (normalizeDomain domain) config.searchType) = true)
    (hk : k < config.retries)
    (hfail : ∀ i, 1 ≤ i → i ≤ k → retryableFailure
      (w.transport (buildCDXURL (normalizeDomain domain) config.searchType) i) = true)
    (hresp : w.transport (buildCDXURL (normalizeDomain domain) config.searchType) (k + 1)
      = DoResult.resp statusCode header body readErr)
    (h2xx : ¬ (200 ≤ statusCode ∧ statusCode ≤ 299)) (h500 : statusCode < 500)
    (h429 : statusCode ≠ 429) :
    ∃ t : Trace,
      processDomainWithRetries w config client domain = some t ∧
      t.requests.length = k + 1 ∧
      t.sleeps = (List.range k).map (fun i => backoffTime (1 + i)) ∧
      t.sleeps.length = k ∧
      t.stdout = [] := by
  obtain ⟨t1, e0, e1, e2, e3, _⟩ :=
    retryLoop_returns_after_failures w config _
      { client := client, requests := [], sleeps := [], stdout := [] } k _
      hreq hk hfail hresp (Or.inl ⟨by omega, by omega⟩)
  exact ⟨_, process_of_returned w config client domain t1 hdom e0, by simp [e1], by simp [e2],
    by simp [e2], by simp [e3]⟩

/-- C4, the specification's example: a 404 is not retried although
`maxAttempts = 3`. -/
theorem C4_fatal_status_ends_processing_witness :
    ∃ t : Trace,
      processDomainWithRetries (alwaysStatus 404 sampleBody) (plainConfig 3) NewWaybackClient
        "example.com".toList = some t ∧
      t.requests.length = 0 + 1 ∧
      t.sleeps = (List.range 0).map (fun i => backoffTime (1 + i)) ∧
      t.sleeps.length = 0 ∧
      t.stdout = [] :=
  C4_fatal_status_ends_processing (alwaysStatus 404 sampleBody) (plainConfig 3) NewWaybackClient
    "example.com".toList 0 404 noHeaders sampleBody false (by decide) (by decide) (by decide)
    (by intro i h1 h2; omega) rfl (by decide) (by decide) (by decide)

/-- C5: for every retry ceiling `n >= 1`, if every attempt is a retryable failure
then processing returns normally after exactly `n` requests and exactly `n - 1`
sleeps (none after the last attempt), with no output. -/
theorem C5_exhaustion (w : World) (config : Config) (client : WaybackClient) (domain : Str)
    (hdom : TrimSpace domain ≠ [])
    (hreq : w.newRequest (buildCDXURL (normalizeDomain domain) config.searchType) = true)
    (hn : 1 ≤ config.retries)
    (hfail : ∀ i, 1 ≤ i → i ≤ config.retries → retryableFailure
      (w.transport (buildCDXURL (normalizeDomain domain) config.searchType) i) = true) :
    ∃ t : Trace,
      processDomainWithRetries w config client domain = some t ∧
      t.requests.length = config.retries ∧
      t.sleeps = (List.range (config.retries - 1)).map (fun i => backoffTime (1 + i)) ∧
      t.sleeps.length = config.retries - 1 ∧
      t.stdout = [] := by
  obtain ⟨k, hk⟩ : ∃ k, config.retries = k + 1 := ⟨config.retries - 1, by omega⟩
  have hlast := hfail (k + 1) (by omega) (by omega)
  have hstop : returnsAt config.retries (k + 1)
      (w.transport (buildCDXURL (normalizeDomain domain) config.searchType) (k + 1)) := by
    cases hres : w.transport (buildCDXURL (normalizeDomain domain) config.searchType) (k + 1) with
    | err => simp only [returnsAt]; omega
    | resp statusCode header data readErr =>
      rw [hres] at hlast
      simp only [retryableFailure, Bool.or_eq_true, Bool.and_eq_true, decide_eq_true_eq] at hlast
      simp only [returnsAt]
      by_cases hs : statusCode = 200
      · right
        rcases hlast with (h | h) | h
        · omega
        · omega
        · exact ⟨hs, h.2, by omega⟩
      · left
        exact ⟨hs, by omega⟩
  obtain ⟨t1, e0, e1, e2, e3, _⟩ :=
    retryLoop_returns_after_failures w config _
      { client := client, requests := [], sleeps := [], stdout := [] } k _
      hreq (by omega) (fun i h1 h2 => hfail i h1 (by omega)) rfl hstop
  refine ⟨_, process_of_returned w config client domain t1 hdom e0, ?_, ?_, ?_, ?_⟩
  · simp [e1, hk]
  · simp [e2, hk]
  · simp [e2, hk]
  · simp [e3]

/-- C5, an instance: three transport errors with `maxAttempts = 3`. -/
theorem C5_exhaustion_witness :
    ∃ t : Trace,
      processDomainWithRetries alwaysErr (plainConfig 3) NewWaybackClient
        "example.com".toList = some t ∧
      t.requests.length = 3 ∧
      t.sleeps = (List.range (3 - 1)).map (fun i => backoffTime (1 + i)) ∧
      t.sleeps.length = 3 - 1 ∧
      t.stdout = [] :=
  C5_exhaustion alwaysErr (plainConfig 3) NewWaybackClient "example.com".toList
    (by decide) (by decide) (by decide) (by intro i h1 h2; rfl)

/-! ## The rate controller (C2, C6, C7) -/

/-- Reading more digits does not make the number smaller. -/
theorem le_decimalFrom (ds : Str) : ∀ x : Nat, x ≤ decimalFrom x ds := by
  induction ds with
  | nil => intro x; exact Nat.le_refl x
  | cons c cs ih =>
    intro x
    have h := ih (x * 10 + (c.toNat - 48))
    simp only [decimalFrom, List.foldl_cons] at h ⊢
    omega

/-- On digits followed by `s`, `leadingInt` reads the number and stops at `s`. -/
theorem leadingInt_digits (ds : Str) :
    ∀ x : Nat, (∀ c ∈ ds, c.isDigit = true) → decimalFrom x ds ≤ 9223372036 →
      leadingInt (ds ++ ['s']) x = some (decimalFrom x ds, ['s']) := by
  induction ds with
  | nil =>
    intro x _ _
    simp [leadingInt, decimalFrom, show ('s').isDigit = false by decide]
  | cons c cs ih =>
    intro x hd hb
    have hc : c.isDigit = true := hd c (List.mem_cons_self c cs)
    have hb1 : decimalFrom (x * 10 + (c.toNat - 48)) cs ≤ 9223372036 := by
      simpa [decimalFrom] using hb
    have hle := le_decimalFrom cs (x * 10 + (c.toNat - 48))
    have hx : ¬ x > 2 ^ 63 / 10 := by norm_num; omega
    have hy : ¬ x * 10 + (c.toNat - 48) > 2 ^ 63 := by norm_num; omega
    rw [List.cons_append, leadingInt]
    simp only [hc, Bool.not_true, Bool.false_eq_true, if_false, hx, hy]
    rw [ih _ (fun c' hc' => hd c' (List.mem_cons_of_mem c hc')) hb1]
    simp [decimalFrom]

/-- A string of digits followed by `s` parses as that many seconds, as long as they
fit a duration. -/
theorem ParseDuration_digits (fmul : Nat → Nat → Nat → Nat) (ds : Str) (hne : ds ≠ [])
    (hd : ∀ c ∈ ds, c.isDigit = true) (hb : decimalValue ds ≤ 9223372036) :
    ParseDuration fmul (ds ++ "s".toList) = some ((decimalValue ds : Int) * Second) := by
  obtain ⟨c, cs, rfl⟩ := List.exists_cons_of_ne_nil hne
  have hc : c.isDigit = true := hd c (List.mem_cons_self c cs)
  have hminus : c ≠ '-' := by rintro rfl; exact absurd hc (by decide)
  have hplus : c ≠ '+' := by rintro rfl; exact absurd hc (by decide)
  have hlead := leadingInt_digits (c :: cs) 0 hd hb
  have hterms : parseTerms fmul (c :: cs ++ ['s']).length (c :: cs ++ ['s']) 0
      = some (decimalValue (c :: cs) * 1000000000) := by
    have hv : ¬ decimalFrom 0 (c :: cs) > 2 ^ 63 / 1000000000 := by
      norm_num; exact hb
    have hlen : (c :: cs ++ ['s']).length = (cs.length + 1) + 1 := by simp
    rw [hlen, List.cons_append, parseTerms]
    rw [List.cons_append] at hlead
    have hfrac : fractionPart ['s'] = (0, 1, ['s'], false) := by decide
    have hu : List.takeWhile (fun x => !endsUnit x) ['s'] = ['s'] := by decide
    have hs3 : List.dropWhile (fun x => !endsUnit x) ['s'] = [] := by decide
    have hunit : unitMap ['s'] = some 1000000000 := by decide
    simp only [hlead, hfrac, hu, hs3, hunit, hc]
    have hb0 : decimalFrom 0 (c :: cs) ≤ 9223372036 := hb
    have hmod : (0 + decimalFrom 0 (c :: cs) * 1000000000) % 2 ^ 64
        = decimalFrom 0 (c :: cs) * 1000000000 := by
      rw [Nat.zero_add]
      exact Nat.mod_eq_of_lt (by norm_num; omega)
    have hd1 : ¬ decimalFrom 0 (c :: cs) * 1000000000 > 2 ^ 63 := by norm_num; omega
    simp [hv, hmod, hd1, parseTerms, decimalValue]
    have hlt : decimalFrom 0 (c :: cs) * 1000000000 < 18446744073709551616 := by omega
    refine ⟨hb0, ?_, hlt⟩
    rw [Nat.mod_eq_of_lt hlt]
    omega
  have hlen2 : c :: cs ++ ['s'] ≠ ['0'] := by
    intro h
    have := congrArg List.length h
    simp at this
  have hsmall : ¬ decimalValue (c :: cs) * 1000000000 > 2 ^ 63 - 1 := by
    omega
  have hint : int64 ((decimalValue (c :: cs) * 1000000000 : Nat) : Int)
      = (decimalValue (c :: cs) : Int) * Second := by
    rw [int64_eq_self _ (by omega) (by push_cast; omega)]
    simp [Second]
  show ParseDuration fmul (c :: cs ++ ['s']) = _
  unfold ParseDuration
  have hsigned : signPart (c :: cs ++ ['s']) = (false, c :: cs ++ ['s']) := by
    unfold signPart
    split
    · rename_i h; exact absurd (List.cons.inj h).1 hminus
    · rename_i h; exact absurd (List.cons.inj h).1 hplus
    · rfl
  simp only [hsigned, hlen2, if_false, hterms, hsmall, hint]
  simp

/-- `AdjustRate` when `Retry-After` is present and parses: only that header counts. -/
theorem AdjustRate_of_parsed (fmul : Nat → Nat → Nat → Nat) (w : WaybackClient) (header : Header)
    (d : Int) (hne : header.Get retryAfterKey ≠ [])
    (hp : ParseDuration fmul (header.Get retryAfterKey ++ "s".toList) = some d) :
    AdjustRate fmul w header = if d > w.lastRate then { limiter := d, lastRate := d } else w := by
  unfold AdjustRate
  unfold retryAfterKey at hne hp
  simp only [hne, ne_eq, not_false_eq_true, if_true, hp]

/-- `AdjustRate` when `Retry-After` is absent or does not parse: the remaining-quota
header decides. -/
theorem AdjustRate_of_unparsed (fmul : Nat → Nat → Nat → Nat) (w : WaybackClient) (header : Header)
    (hp : header.Get retryAfterKey = [] ∨
      ParseDuration fmul (header.Get retryAfterKey ++ "s".toList) = none) :
    AdjustRate fmul w header =
      if header.Get remainingKey = "0".toList ∨ header.Get remainingKey = "1".toList then
        { limiter := 5 * Second, lastRate := 5 * Second }
      else w := by
  unfold AdjustRate
  unfold retryAfterKey at hp
  unfold remainingKey
  generalize header.Get "Retry-After".toList = ra at hp ⊢
  generalize header.Get "X-RateLimit-Remaining".toList = rem
  have hparsed : (if ra ≠ [] then ParseDuration fmul (ra ++ "s".toList) else none) = none := by
    rcases hp with h | h
    · rw [if_neg (by simp [h])]
    · rw [h]; split <;> rfl
  simp only [hparsed]
  by_cases hrem : rem = "0".toList ∨ rem = "1".toList
  · have hne : rem ≠ [] := by
      rcases hrem with h | h <;> (rw [h]; decide)
    simp only [hne, ne_eq, not_false_eq_true, if_true, hrem]
  · simp only [hrem, if_false]
    split <;> rfl

/-- C6 (amended): for every current interval `c` and every header set whose
`Retry-After` value is a non-empty string of decimal digits writing a number
`r <= 9223372036` (so that `r` seconds fit a 64-bit duration), the interval after
`AdjustRate` is `r` seconds if `r` seconds exceed `c`, and `c` otherwise. -/
theorem C6_retry_after_policy (fmul : Nat → Nat → Nat → Nat) (w : WaybackClient)
    (header : Header) (ds : Str) (hne : ds ≠ []) (hd : ∀ c ∈ ds, c.isDigit = true)
    (hb : decimalValue ds ≤ 9223372036) (hget : header.Get retryAfterKey = ds) :
    (AdjustRate fmul w header).lastRate =
      if (decimalValue ds : Int) * Second > w.lastRate then (decimalValue ds : Int) * Second
      else w.lastRate := by
  subst hget
  rw [AdjustRate_of_parsed fmul w header _ hne (ParseDuration_digits fmul _ hne hd hb)]
  split <;> rfl

/-- C6, the specification's example: `Retry-After: 10` raises the initial 1s to
10s, and a later `Retry-After: 3` leaves 10s in place. -/
theorem C6_retry_after_policy_witness :
    (AdjustRate fmulExact NewWaybackClient (oneHeader retryAfterKey "10".toList)).lastRate
      = 10 * Second ∧
    (AdjustRate fmulExact { limiter := 10 * Second, lastRate := 10 * Second }
      (oneHeader retryAfterKey "3".toList)).lastRate = 10 * Second :=
  ⟨C6_retry_after_policy fmulExact NewWaybackClient (oneHeader retryAfterKey "10".toList)
      "10".toList (by decide) (by decide) (by decide) (by decide),
    C6_retry_after_policy fmulExact { limiter := 10 * Second, lastRate := 10 * Second }
      (oneHeader retryAfterKey "3".toList) "3".toList (by decide) (by decide) (by decide)
      (by decide)⟩

/-- C6 as stated fails for a large number: `Retry-After: 9223372037` does not fit
a duration, `time.ParseDuration` reports an error and the interval stays at 1s. -/
theorem C6_counterexample :
    (oneHeader retryAfterKey "9223372037".toList).Get retryAfterKey = "9223372037".toList ∧
    (decimalValue "9223372037".toList : Int) * Second > NewWaybackClient.lastRate ∧
    (AdjustRate fmulExact NewWaybackClient (oneHeader retryAfterKey "9223372037".toList)).lastRate
      = 1 * Second ∧
    (1 * Second ≠ (decimalValue "9223372037".toList : Int) * Second) := by
  decide

/-- C2, the code at the failing input: `Retry-After: 10` raises the interval from
1s to 10s, and a following `X-RateLimit-Remaining: 0` lowers it to 5s. -/
theorem C2_interval_decreases :
    (AdjustRate fmulExact NewWaybackClient (oneHeader retryAfterKey "10".toList)).lastRate
      = 10 * Second ∧
    (AdjustRate fmulExact
      (AdjustRate fmulExact NewWaybackClient (oneHeader retryAfterKey "10".toList))
      (oneHeader remainingKey "0".toList)).lastRate = 5 * Second := by
  decide

/-- C7 (amended): for every current interval `c` and every header set whose
`X-RateLimit-Remaining` is `"0"` or `"1"`: if `Retry-After` is absent or does not
parse as a duration and `c < 5s`, the interval after `AdjustRate` is 5 seconds; if
`Retry-After` is present and parses to a duration not greater than `c`, the interval
stays `c`. -/
theorem C7_remaining_quota_policy (fmul : Nat → Nat → Nat → Nat) (w : WaybackClient)
    (header : Header)
    (hrem : header.Get remainingKey = "0".toList ∨ header.Get remainingKey = "1".toList) :
    ((header.Get retryAfterKey = [] ∨
        ParseDuration fmul (header.Get retryAfterKey ++ "s".toList) = none) →
      w.lastRate < 5 * Second → (AdjustRate fmul w header).lastRate = 5 * Second) ∧
    (∀ d : Int, header.Get retryAfterKey ≠ [] →
      ParseDuration fmul (header.Get retryAfterKey ++ "s".toList) = some d →
      d ≤ w.lastRate → (AdjustRate fmul w header).lastRate = w.lastRate) := by
  constructor
  · intro hp _
    rw [AdjustRate_of_unparsed fmul w header hp, if_pos hrem]
  · intro d hne hp hle
    rw [AdjustRate_of_parsed fmul w header d hne hp, if_neg (by omega)]

/-- C7, an instance: from the initial 1s, `X-RateLimit-Remaining: 0` alone gives
5s. -/
theorem C7_remaining_quota_policy_witness :
    (AdjustRate fmulExact NewWaybackClient (oneHeader remainingKey "0".toList)).lastRate
      = 5 * Second :=
  (C7_remaining_quota_policy fmulExact NewWaybackClient (oneHeader remainingKey "0".toList)
    (Or.inl (by decide))).1 (Or.inl (by decide)) (by decide)

/-- C7 as stated fails when `Retry-After` is present: with `Retry-After: 1` (not
greater than the current 1s) and `X-RateLimit-Remaining: 0`, the interval stays 1s
instead of becoming 5s. -/
theorem C7_counterexample :
    (twoHeaders retryAfterKey "1".toList remainingKey "0".toList).Get retryAfterKey = "1".toList ∧
    (twoHeaders retryAfterKey "1".toList remainingKey "0".toList).Get remainingKey = "0".toList ∧
    ¬ ((decimalValue "1".toList : Int) * Second > NewWaybackClient.lastRate) ∧
    NewWaybackClient.lastRate < 5 * Second ∧
    (AdjustRate fmulExact NewWaybackClient
      (twoHeaders retryAfterKey "1".toList remainingKey "0".toList)).lastRate = 1 * Second ∧
    (1 * Second ≠ 5 * Second) := by
  decide

/-! ## The response parser (C8) -/

/-- `Split` is the library's `List.splitOn`. -/
theorem Split_eq_splitOn (s : Str) (sep : Char) : Split s sep = s.splitOn sep := by
  induction s with
  | nil => rfl
  | cons c cs ih =>
    unfold List.splitOn at ih ⊢
    rw [List.splitOnP_cons, Split, ih]
    by_cases h : c = sep
    · simp [h]
    · have h2 : (c == sep) = false := by simp [h]
      rw [if_neg h, h2]
      cases hx : List.splitOnP (fun x => x == sep) cs with
      | nil => exact absurd hx (List.splitOnP_ne_nil _ _)
      | cons x xs => simp

/-- The scanning loop of `Fields` keeps the non-empty pieces between white space. -/
theorem fieldsFrom_eq (l : Str) : ∀ cur : Str,
    fieldsFrom cur l = (List.splitOnP.go isSpace l cur).filter fun piece => !piece.isEmpty := by
  induction l with
  | nil =>
    intro cur
    cases cur with
    | nil => simp [fieldsFrom, List.splitOnP.go]
    | cons a r => simp [fieldsFrom, List.splitOnP.go]
  | cons c cs ih =>
    intro cur
    by_cases hc : isSpace c = true
    · rw [fieldsFrom, List.splitOnP.go, if_pos hc, if_pos hc, ih []]
      cases cur with
      | nil => simp
      | cons a r => simp
    · rw [fieldsFrom, List.splitOnP.go, if_neg hc, if_neg hc, ih (c :: cur)]

/-- `Fields` computes the fields of the specification. -/
theorem Fields_eq_specFields (l : Str) : Fields l = specFields l :=
  fieldsFrom_eq l []

/-- A blank line has no output line. -/
theorem specLine_of_blank (line : Str) (h : TrimSpace line = []) : specLine line = none := by
  simp [specLine, specRecord, h]

/-- A line with two fields has their playback URL as output line. -/
theorem specLine_of_two (line t u : Str) (hblank : TrimSpace line ≠ [])
    (h : Fields (TrimSpace line) = [t, u]) : specLine line = some (waybackURL t u) := by
  rw [Fields_eq_specFields] at h
  simp [specLine, specRecord, hblank, h, waybackURL]

/-- A line whose number of fields is not two has no output line. -/
theorem specLine_of_other (line : Str) (h : (Fields (TrimSpace line)).length ≠ 2) :
    specLine line = none := by
  rw [Fields_eq_specFields] at h
  unfold specLine specRecord
  by_cases hblank : TrimSpace line = []
  · simp [hblank]
  · simp only [hblank, if_false]
    split
    · rename_i t u heq; rw [heq] at h; exact absurd rfl h
    · rfl

/-- Without filtering, the printing loop appends the output lines of the
specification. -/
theorem emitLines_eq (config : Config) (hoff : config.onlySensitive = false) (lines : List Str) :
    ∀ out : List Str, emitLines config lines out = out ++ lines.filterMap specLine := by
  induction lines with
  | nil => intro out; simp [emitLines]
  | cons line rest ih =>
    intro out
    rw [emitLines, List.filterMap_cons]
    by_cases hblank : TrimSpace line = []
    · rw [specLine_of_blank line hblank]
      simp only [hblank, if_true]
      exact ih out
    · by_cases hlen : (Fields (TrimSpace line)).length = 2
      · obtain ⟨t, u, htu⟩ : ∃ t u, Fields (TrimSpace line) = [t, u] := by
          match hf : Fields (TrimSpace line), hlen with
          | [t, u], _ => exact ⟨t, u, rfl⟩
        rw [specLine_of_two line t u hblank htu]
        simp only [hblank, if_false, htu, hoff, List.length_cons, List.length_nil, ne_eq,
          not_true_eq_false, Bool.false_eq_true]
        rw [ih]
        simp
      · rw [specLine_of_other line hlen]
        simp only [hblank, if_false, ne_eq, hlen, not_false_eq_true, if_true]
        exact ih out

/-- C8: with sensitivity filtering off, for every response body the lines printed
are exactly, in body order, the playback URLs
`"https://web.archive.org/web/" ++ t ++ "/" ++ u` of the newline-separated lines
that, once trimmed, are not blank and split on runs of white space into exactly the
two fields `t`, `u`; any other line adds nothing and the lines after it are still
processed. -/
theorem C8_response_parsing (config : Config) (body : Str) (out : List Str)
    (hoff : config.onlySensitive = false) :
    emitLines config (Split body '\n') out = out ++ specOutput body := by
  rw [emitLines_eq config hoff, Split_eq_splitOn]
  rfl

/-- C8, the specification's example: two records around a malformed line. -/
theorem C8_response_parsing_witness :
    emitLines (plainConfig 3) (Split sampleBody '\n') [] =
      ["https://web.archive.org/web/20200101000000/http://a.com/x".toList,
       "https://web.archive.org/web/20200102000000/http://a.com/y".toList] :=
  (C8_response_parsing (plainConfig 3) sampleBody [] rfl).trans (by decide)

/-! ## The query builder (C9) -/

/-- The code points of ASCII letters and digits. -/
theorem isAlphanum_toNat (c : Char) (h : c.isAlphanum = true) :
    (48 ≤ c.toNat ∧ c.toNat ≤ 57) ∨ (65 ≤ c.toNat ∧ c.toNat ≤ 90) ∨
      (97 ≤ c.toNat ∧ c.toNat ≤ 122) := by
  simp only [Char.isAlphanum, Char.isAlpha, Char.isUpper, Char.isLower, Char.isDigit,
    Bool.or_eq_true, Bool.and_eq_true, decide_eq_true_eq, ge_iff_le, UInt32.le_def,
    BitVec.le_def] at h
  simp only [Char.toNat, UInt32.toNat]
  have e1 : (UInt32.toBitVec 65).toNat = 65 := rfl
  have e2 : (UInt32.toBitVec 90).toNat = 90 := rfl
  have e3 : (UInt32.toBitVec 97).toNat = 97 := rfl
  have e4 : (UInt32.toBitVec 122).toNat = 122 := rfl
  have e5 : (UInt32.toBitVec 48).toNat = 48 := rfl
  have e6 : (UInt32.toBitVec 57).toNat = 57 := rfl
  rw [e1, e2, e3, e4, e5, e6] at h
  omega

/-- The code points of the unreserved characters. -/
theorem unreserved_toNat (c : Char) (h : unreserved c = true) :
    (48 ≤ c.toNat ∧ c.toNat ≤ 57) ∨ (65 ≤ c.toNat ∧ c.toNat ≤ 90) ∨
      (97 ≤ c.toNat ∧ c.toNat ≤ 122) ∨ c.toNat = 46 ∨ c.toNat = 45 ∨ c.toNat = 95 ∨
      c.toNat = 126 := by
  simp only [unreserved, Bool.or_eq_true, beq_iff_eq] at h
  rcases h with (((h | h) | h) | h) | h
  · have := isAlphanum_toNat c h; omega
  · subst h; decide
  · subst h; decide
  · subst h; decide
  · subst h; decide

/-- An unreserved character is written as itself. -/
theorem escape_unreserved (c : Char) (h : unreserved c = true) :
    (utf8Bytes c).flatMap escapeByte = [c] := by
  have hn := unreserved_toNat c h
  have h1 : c.toNat < 0x80 := by omega
  have h2 : c.toNat ≠ 32 := by omega
  have h3 : shouldEscape c.toNat = false := by
    simp only [shouldEscape, Bool.not_eq_false', Bool.or_eq_true, Bool.and_eq_true,
      decide_eq_true_eq, beq_iff_eq]
    omega
  simp [utf8Bytes, h1, escapeByte, h2, h3, Char.ofNat_toNat]

/-- `QueryEscape` is the identity on strings of unreserved characters. -/
theorem QueryEscape_unreserved (d : Str) (h : ∀ c ∈ d, unreserved c = true) :
    QueryEscape d = d := by
  induction d with
  | nil => rfl
  | cons c cs ih =>
    have hc := escape_unreserved c (h c (List.mem_cons_self c cs))
    have hcs := ih (fun x hx => h x (List.mem_cons_of_mem c hx))
    unfold QueryEscape at hcs ⊢
    rw [List.flatMap_cons, hc, hcs]
    rfl

/-- The value of a byte `(v >>> s) & m | t` of the UTF-8 encoder, in arithmetic. -/
theorem uint8_byte (v : UInt32) (m t : UInt8) (s : Nat) (hs : s < 32) :
    ((v >>> (UInt32.ofNat s)).toUInt8 &&& m ||| t).toNat =
      (((v.toNat / 2 ^ s) % 256) &&& m.toNat) ||| t.toNat := by
  show ((BitVec.ofNat 8 ((v.toBitVec >>> ((UInt32.ofNat s).mod 32).toBitVec).toNat) &&& m.toBitVec) |||
    t.toBitVec).toNat = _
  have h32 : ((UInt32.ofNat s).mod 32).toBitVec.toNat = s := by
    show ((BitVec.ofNat 32 s) % (BitVec.ofNat 32 32)).toNat = s
    rw [BitVec.toNat_umod, BitVec.toNat_ofNat, BitVec.toNat_ofNat,
      Nat.mod_eq_of_lt (show s < 2 ^ 32 by omega), show (32 : Nat) % 2 ^ 32 = 32 by norm_num,
      Nat.mod_eq_of_lt hs]
  rw [BitVec.toNat_or, BitVec.toNat_and, BitVec.toNat_ofNat]
  simp only [BitVec.ushiftRight_eq', BitVec.toNat_ushiftRight, h32, Nat.shiftRight_eq_div_pow]
  rfl

/-- The value of a byte `v & m | t` of the UTF-8 encoder, in arithmetic. -/
theorem uint8_low (v : UInt32) (m t : UInt8) :
    (v.toUInt8 &&& m ||| t).toNat = ((v.toNat % 256) &&& m.toNat) ||| t.toNat := by
  show ((BitVec.ofNat 8 v.toNat &&& m.toBitVec) ||| t.toBitVec).toNat = _
  rw [BitVec.toNat_or, BitVec.toNat_and, BitVec.toNat_ofNat]
  rfl

/-- Masking to `k` bits and setting a tag above them is an addition. -/
theorem or_tag (k tag : Nat) (h : ∀ y, y < 2 ^ k → y ||| tag = tag + y) (x : Nat) :
    ((x % 256) &&& (2 ^ k - 1)) ||| tag = tag + x % 256 % 2 ^ k := by
  rw [Nat.and_pow_two_sub_one_eq_mod]
  exact h _ (Nat.mod_lt _ (by positivity))

/-- The tag of the first of two bytes. -/
theorem or_c0 : ∀ y, y < 2 ^ 5 → y ||| 0xc0 = 0xc0 + y := by decide
/-- The tag of a continuation byte. -/
theorem or_80 : ∀ y, y < 2 ^ 6 → y ||| 0x80 = 0x80 + y := by decide
/-- The tag of the first of three bytes. -/
theorem or_e0 : ∀ y, y < 2 ^ 4 → y ||| 0xe0 = 0xe0 + y := by decide
/-- The tag of the first of four bytes. -/
theorem or_f0 : ∀ y, y < 2 ^ 3 → y ||| 0xf0 = 0xf0 + y := by decide

/-- The bytes of the model are the bytes of the library's UTF-8 encoder. -/
theorem utf8Bytes_eq (c : Char) :
    (String.utf8EncodeChar c).map UInt8.toNat = utf8Bytes c := by
  have hvalid : c.toNat < 0x110000 := by
    have := c.valid
    simp only [Char.toNat]
    rcases this with h | h
    · exact Nat.lt_trans h (by decide)
    · exact h.2
  have hle : ∀ k : UInt32, (c.val ≤ k) ↔ c.toNat ≤ k.toNat := fun k => by
    simp only [Char.toNat]; exact UInt32.le_def
  unfold utf8Bytes String.utf8EncodeChar
  simp only [hle]
  have e1 : (0x7f : UInt32).toNat = 0x7f := rfl
  have e2 : (0x7ff : UInt32).toNat = 0x7ff := rfl
  have e3 : (0xffff : UInt32).toNat = 0xffff := rfl
  rw [e1, e2, e3]
  have hn : c.val.toNat = c.toNat := rfl
  have b6a : ((c.val >>> 6).toUInt8 &&& 31 ||| 192).toNat = 192 + c.toNat / 64 % 256 % 32 := by
    have h := uint8_byte c.val 31 192 6 (by decide)
    rw [hn] at h
    exact h.trans (or_tag 5 192 or_c0 _)
  have b6 : ((c.val >>> 6).toUInt8 &&& 63 ||| 128).toNat = 128 + c.toNat / 64 % 256 % 64 := by
    have h := uint8_byte c.val 63 128 6 (by decide)
    rw [hn] at h
    exact h.trans (or_tag 6 128 or_80 _)
  have b12a : ((c.val >>> 12).toUInt8 &&& 15 ||| 224).toNat = 224 + c.toNat / 4096 % 256 % 16 := by
    have h := uint8_byte c.val 15 224 12 (by decide)
    rw [hn] at h
    exact h.trans (or_tag 4 224 or_e0 _)
  have b12 : ((c.val >>> 12).toUInt8 &&& 63 ||| 128).toNat = 128 + c.toNat / 4096 % 256 % 64 := by
    have h := uint8_byte c.val 63 128 12 (by decide)
    rw [hn] at h
    exact h.trans (or_tag 6 128 or_80 _)
  have b18 : ((c.val >>> 18).toUInt8 &&& 7 ||| 240).toNat = 240 + c.toNat / 262144 % 256 % 8 := by
    have h := uint8_byte c.val 7 240 18 (by decide)
    rw [hn] at h
    exact h.trans (or_tag 3 240 or_f0 _)
  have b0 : (c.val.toUInt8 &&& 63 ||| 128).toNat = 128 + c.toNat % 256 % 64 := by
    have h := uint8_low c.val 63 128
    rw [hn] at h
    exact h.trans (or_tag 6 128 or_80 _)
  have bl : c.val.toUInt8.toNat = c.toNat % 256 := by
    show (BitVec.ofNat 8 c.val.toNat).toNat = _
    rw [BitVec.toNat_ofNat, hn]
  by_cases h1 : c.toNat ≤ 127
  · rw [if_pos h1, if_pos (show c.toNat < 128 by omega)]
    simp only [List.map_cons, List.map_nil, bl]
    congr 1; omega
  · rw [if_neg h1, if_neg (show ¬ c.toNat < 128 by omega)]
    by_cases h2 : c.toNat ≤ 2047
    · rw [if_pos h2, if_pos (show c.toNat < 2048 by omega)]
      simp only [List.map_cons, List.map_nil, b6a, b0]
      congr 1
      · omega
      · congr 1; omega
    · rw [if_neg h2, if_neg (show ¬ c.toNat < 2048 by omega)]
      by_cases h3 : c.toNat ≤ 65535
      · rw [if_pos h3, if_pos (show c.toNat < 65536 by omega)]
        simp only [List.map_cons, List.map_nil, b12a, b6, b0]
        congr 1
        · omega
        · congr 1
          · omega
          · congr 1; omega
      · rw [if_neg h3, if_neg (show ¬ c.toNat < 65536 by omega)]
        simp only [List.map_cons, List.map_nil, b18, b12, b6, b0]
        congr 1
        · omega
        · congr 1
          · omega
          · congr 1
            · omega
            · congr 1; omega

set_option maxRecDepth 100000 in
/-- On a byte, `url.QueryEscape` writes what percent-encoding prescribes. -/
theorem escapeByte_eq : ∀ b : Nat, b < 256 → escapeByte b = percentEncodeByte b := by
  decide

/-- `url.QueryEscape` is query percent-encoding. -/
theorem QueryEscape_eq_percentEncode (d : Str) : QueryEscape d = percentEncode d := by
  unfold QueryEscape percentEncode
  congr 1
  funext c
  rw [utf8Bytes_eq]
  have hlt : ∀ b ∈ utf8Bytes c, b < 256 := by
    intro b hb
    rw [← utf8Bytes_eq] at hb
    obtain ⟨x, _, rfl⟩ := List.mem_map.mp hb
    exact x.toNat_lt
  generalize utf8Bytes c = bs at hlt
  induction bs with
  | nil => rfl
  | cons b bs ih =>
    rw [List.flatMap_cons, List.flatMap_cons, escapeByte_eq b (hlt b (List.mem_cons_self b bs)),
      ih (fun x hx => hlt x (List.mem_cons_of_mem b hx))]

/-- Every hexadecimal digit is an unreserved character. -/
theorem unreserved_hexUpper (n : Nat) : unreserved (hexUpper n) = true := by
  by_cases h : n < 16
  · interval_cases n <;> decide
  · have : hexUpper n = '0' := by
      unfold hexUpper
      exact List.getD_eq_default _ _ (by simp; omega)
    rw [this]; decide

/-- Percent-encoding writes unreserved characters, `+` and `%` only. -/
theorem percentEncode_safe (d : Str) :
    ∀ c ∈ percentEncode d, unreserved c = true ∨ c = '+' ∨ c = '%' := by
  intro c hc
  unfold percentEncode at hc
  obtain ⟨x, _, hx⟩ := List.mem_flatMap.mp hc
  obtain ⟨b, _, hb⟩ := List.mem_flatMap.mp hx
  unfold percentEncodeByte at hb
  split at hb
  · rename_i hu
    rw [List.mem_singleton] at hb
    exact Or.inl (hb ▸ hu)
  · split at hb
    · rw [List.mem_singleton] at hb
      exact Or.inr (Or.inl hb)
    · simp only [List.mem_cons, List.mem_singleton, List.not_mem_nil, or_false] at hb
      rcases hb with rfl | rfl | rfl
      · exact Or.inr (Or.inr rfl)
      · exact Or.inl (unreserved_hexUpper _)
      · exact Or.inl (unreserved_hexUpper _)

/-- C9: for every domain `d`, `buildCDXURL d "domain"` and `buildCDXURL d "wildcard"`
are the CDX endpoint with `url=esc(d)/*`, respectively `url=*.esc(d)/*`, followed by
`output=text`, `fl=timestamp,original` and `collapse=urlkey`, where `esc` is query
percent-encoding: every byte of the UTF-8 encoding of `d` that is not a letter, a
digit, `.`, `-`, `_` or `~` is written `%XX` in upper-case hexadecimal (a space as
`+`), so that `esc` is the identity on strings of unreserved characters and `esc(d)`
holds unreserved characters, `+` and `%` only. -/
theorem C9_buildCDXURL (d : Str) :
    buildCDXURL d "domain".toList =
      "http://web.archive.org/cdx/search/cdx?url=".toList ++ percentEncode d ++
        "/*&output=text&fl=timestamp,original&collapse=urlkey".toList ∧
    buildCDXURL d "wildcard".toList =
      "http://web.archive.org/cdx/search/cdx?url=*.".toList ++ percentEncode d ++
        "/*&output=text&fl=timestamp,original&collapse=urlkey".toList ∧
    ((∀ c ∈ d, unreserved c = true) → percentEncode d = d) ∧
    (∀ c ∈ percentEncode d, unreserved c = true ∨ c = '+' ∨ c = '%') := by
  refine ⟨?_, ?_, ?_, percentEncode_safe d⟩
  · unfold buildCDXURL
    rw [if_pos rfl, QueryEscape_eq_percentEncode]
  · unfold buildCDXURL
    rw [if_neg (by decide), QueryEscape_eq_percentEncode]
  · intro h
    rw [← QueryEscape_eq_percentEncode]
    exact QueryEscape_unreserved d h

/-- C9, examples: `example.com` in both modes (the specification's example), a
domain with a space and reserved characters, and a domain with a letter outside
ASCII. -/
theorem C9_buildCDXURL_witness :
    buildCDXURL "example.com".toList "domain".toList =
      "http://web.archive.org/cdx/search/cdx?url=example.com/*&output=text&fl=timestamp,original&collapse=urlkey".toList ∧
    buildCDXURL "example.com".toList "wildcard".toList =
      "http://web.archive.org/cdx/search/cdx?url=*.example.com/*&output=text&fl=timestamp,original&collapse=urlkey".toList ∧
    buildCDXURL "a b&fl=x#".toList "domain".toList =
      "http://web.archive.org/cdx/search/cdx?url=a+b%26fl%3Dx%23/*&output=text&fl=timestamp,original&collapse=urlkey".toList ∧
    buildCDXURL "é.com/?".toList "wildcard".toList =
      "http://web.archive.org/cdx/search/cdx?url=*.%C3%A9.com%2F%3F/*&output=text&fl=timestamp,original&collapse=urlkey".toList := by
  have h := C9_buildCDXURL "example.com".toList
  have hq := h.2.2.1 (by decide)
  refine ⟨?_, ?_, ?_, ?_⟩
  · rw [h.1, hq]; rfl
  · rw [h.2.1, hq]; rfl
  · exact (C9_buildCDXURL "a b&fl=x#".toList).1.trans (by decide)
  · exact (C9_buildCDXURL "é.com/?".toList).2.1.trans (by decide)

/-! ## Domain normalisation (C10) -/

/-- The code points of the host characters. -/
theorem hostChar_toNat (c : Char) (h : hostChar c = true) :
    (48 ≤ c.toNat ∧ c.toNat ≤ 57) ∨ (65 ≤ c.toNat ∧ c.toNat ≤ 90) ∨
      (97 ≤ c.toNat ∧ c.toNat ≤ 122) ∨ c.toNat = 46 ∨ c.toNat = 45 := by
  simp only [hostChar, Bool.or_eq_true, beq_iff_eq] at h
  rcases h with (h | h) | h
  · have := isAlphanum_toNat c h; omega
  · subst h; decide
  · subst h; decide

/-- A host character is not white space. -/
theorem hostChar_not_space (c : Char) (h : hostChar c = true) : isSpace c = false := by
  have hn := hostChar_toNat c h
  simp only [isSpace, Bool.or_eq_false_iff, Bool.and_eq_false_imp, beq_eq_false_iff_ne,
    decide_eq_true_eq, decide_eq_false_iff_not]
  omega

/-- A host character is not `/`. -/
theorem hostChar_ne_slash (c : Char) (h : hostChar c = true) : c ≠ '/' := by
  rintro rfl
  exact absurd h (by decide)

/-- A host character is neither `:` nor `/`. -/
theorem hostChar_notSeparator (c : Char) (h : hostChar c = true) : notSeparator c = true := by
  have hn := hostChar_toNat c h
  have h1 : c ≠ ':' := by rintro rfl; exact absurd h (by decide)
  have h2 : c ≠ '/' := hostChar_ne_slash c h
  simp [notSeparator, h1, h2]

/-- Leading white space is dropped up to the first other character. -/
theorem dropWhile_spaces_append (ws : Str) (a : Char) (r : Str)
    (hws : ∀ c ∈ ws, isSpace c = true) (ha : isSpace a = false) :
    (ws ++ a :: r).dropWhile isSpace = a :: r := by
  induction ws with
  | nil => simp [List.dropWhile, ha]
  | cons c cs ih =>
    rw [List.cons_append, List.dropWhile_cons_of_pos (hws c (List.mem_cons_self c cs))]
    exact ih (fun x hx => hws x (List.mem_cons_of_mem c hx))

/-- `dropWhile` does not go past an element that fails the test. -/
theorem dropWhile_append_stop {p : Char → Bool} (u : Str) (b : Char) (v : Str)
    (hb : p b = false) :
    (u ++ b :: v).dropWhile p = u.dropWhile p ++ b :: v := by
  induction u with
  | nil => simp [List.dropWhile, hb]
  | cons a u ih =>
    by_cases ha : p a = true
    · rw [List.cons_append, List.dropWhile_cons_of_pos ha, List.dropWhile_cons_of_pos ha, ih]
    · rw [List.cons_append, List.dropWhile_cons_of_neg ha, List.dropWhile_cons_of_neg ha]
      rfl

/-- `rdropWhile` does not go back past an element that fails the test. -/
theorem rdropWhile_append_stop {p : Char → Bool} (x : Str) (b : Char) (y : Str)
    (hb : p b = false) :
    (x ++ b :: y).rdropWhile p = x ++ b :: y.rdropWhile p := by
  unfold List.rdropWhile
  rw [List.reverse_append, List.reverse_cons, List.append_assoc, List.singleton_append,
    dropWhile_append_stop _ _ _ hb]
  simp

/-- A path followed by white space, trimmed on the right, is empty or starts with `/`. -/
theorem trimmed_tail (p ws2 : Str) (hp : p = [] ∨ p.head? = some '/')
    (hw2 : ∀ c ∈ ws2, isSpace c = true) :
    (p ++ ws2).rdropWhile isSpace = [] ∨ ∃ q, (p ++ ws2).rdropWhile isSpace = '/' :: q := by
  rcases hp with rfl | hp
  · left
    rw [List.nil_append, List.rdropWhile_eq_nil_iff]
    exact hw2
  · right
    cases p with
    | nil => simp at hp
    | cons c q =>
      simp only [List.head?_cons, Option.some.injEq] at hp
      subst hp
      exact ⟨_, by
        rw [List.cons_append]
        exact rdropWhile_append_stop [] '/' (q ++ ws2) (by decide)⟩

/-- No host character is a separator. -/
theorem dropWhile_notSeparator_host (h T : Str) (hh : ∀ c ∈ h, hostChar c = true) :
    (h ++ T).dropWhile notSeparator = T.dropWhile notSeparator := by
  induction h with
  | nil => rfl
  | cons c cs ih =>
    rw [List.cons_append,
      List.dropWhile_cons_of_pos (hostChar_notSeparator c (hh c (List.mem_cons_self c cs)))]
    exact ih (fun x hx => hh x (List.mem_cons_of_mem c hx))

/-- A host followed by nothing or by a path does not start with a scheme. -/
theorem host_no_scheme (h T pre : Str) (hh : ∀ c ∈ h, hostChar c = true)
    (hT : T = [] ∨ ∃ q, T = '/' :: q)
    (hpre : pre = "http://".toList ∨ pre = "https://".toList) :
    pre.isPrefixOf (h ++ T) = false := by
  rw [Bool.eq_false_iff]
  intro hcontra
  obtain ⟨t, ht⟩ := List.isPrefixOf_iff_prefix.mp hcontra
  have hd := congrArg (List.dropWhile notSeparator) ht
  rw [dropWhile_notSeparator_host h T hh] at hd
  have hT2 : T.dropWhile notSeparator = [] ∨ ∃ q, T.dropWhile notSeparator = '/' :: q := by
    rcases hT with rfl | ⟨q, rfl⟩
    · left; rfl
    · right; exact ⟨q, List.dropWhile_cons_of_neg (by decide)⟩
  have hL : ∃ r, (pre ++ t).dropWhile notSeparator = ':' :: r := by
    rcases hpre with rfl | rfl
    · exact ⟨'/' :: '/' :: t, by simp [List.dropWhile, notSeparator]⟩
    · exact ⟨'/' :: '/' :: t, by simp [List.dropWhile, notSeparator]⟩
  obtain ⟨r, hr⟩ := hL
  rw [hr] at hd
  rcases hT2 with h0 | ⟨q, hq⟩
  · rw [h0] at hd; exact absurd hd (by simp)
  · rw [hq] at hd
    have := (List.cons.inj hd).1
    exact absurd this (by decide)

/-- `TrimPrefix` with a scheme leaves a bare host and its path alone. -/
theorem TrimPrefix_host (h T pre : Str) (hh : ∀ c ∈ h, hostChar c = true)
    (hT : T = [] ∨ ∃ q, T = '/' :: q)
    (hpre : pre = "http://".toList ∨ pre = "https://".toList) :
    TrimPrefix (h ++ T) pre = h ++ T := by
  unfold TrimPrefix
  rw [host_no_scheme h T pre hh hT hpre]
  rfl

/-- `TrimPrefix` removes a prefix that is there. -/
theorem TrimPrefix_self_append (pre s : Str) : TrimPrefix (pre ++ s) pre = s := by
  unfold TrimPrefix
  have h : pre.isPrefixOf (pre ++ s) = true :=
    List.isPrefixOf_iff_prefix.mpr (List.prefix_append pre s)
  rw [h, if_pos rfl, List.drop_left]

/-- The first piece of a host followed by a path is the host. -/
theorem Split_host (h T : Str) (hh : ∀ c ∈ h, hostChar c = true)
    (hT : T = [] ∨ ∃ q, T = '/' :: q) :
    ∃ xs, Split (h ++ T) '/' = h :: xs := by
  induction h with
  | nil =>
    rcases hT with rfl | ⟨q, rfl⟩
    · exact ⟨[], rfl⟩
    · exact ⟨Split q '/', by simp [Split]⟩
  | cons c cs ih =>
    obtain ⟨xs, hxs⟩ := ih (fun x hx => hh x (List.mem_cons_of_mem c hx))
    have hc : c ≠ '/' := hostChar_ne_slash c (hh c (List.mem_cons_self c cs))
    exact ⟨xs, by rw [List.cons_append, Split, if_neg hc, hxs]⟩

/-- C10: for every non-empty host `h` of letters, digits, `.` and `-`, every scheme
among `""`, `"http://"`, `"https://"`, every path `p` that is empty or starts with
`/`, and any white space around, the domain normalised from `scheme ++ h ++ p` is
exactly `h`. -/
theorem C10_normalizeDomain (ws1 scheme h p ws2 : Str) (hne : h ≠ [])
    (hh : ∀ c ∈ h, hostChar c = true)
    (hs : scheme = [] ∨ scheme = "http://".toList ∨ scheme = "https://".toList)
    (hp : p = [] ∨ p.head? = some '/')
    (hw1 : ∀ c ∈ ws1, isSpace c = true) (hw2 : ∀ c ∈ ws2, isSpace c = true) :
    normalizeDomain (ws1 ++ scheme ++ h ++ p ++ ws2) = h := by
  obtain ⟨hi, b, rfl⟩ : ∃ hi b, h = hi ++ [b] := by
    rcases List.eq_nil_or_concat h with h0 | ⟨hi, b, hb⟩
    · exact absurd h0 hne
    · exact ⟨hi, b, by rw [hb, List.concat_eq_append]⟩
  have hb : isSpace b = false := hostChar_not_space b (hh b (by simp))
  have hT := trimmed_tail p ws2 hp hw2
  have hfirst : ∃ a r, scheme ++ (hi ++ [b]) = a :: r ∧ isSpace a = false := by
    rcases hs with rfl | rfl | rfl
    · cases hi with
      | nil => exact ⟨b, [], rfl, hb⟩
      | cons a r => exact ⟨a, r ++ [b], rfl, hostChar_not_space a (hh a (by simp))⟩
    · exact ⟨'h', _, rfl, by decide⟩
    · exact ⟨'h', _, rfl, by decide⟩
  obtain ⟨a, r, har, ha⟩ := hfirst
  have htrim : TrimSpace (ws1 ++ scheme ++ (hi ++ [b]) ++ p ++ ws2)
      = scheme ++ (hi ++ [b]) ++ (p ++ ws2).rdropWhile isSpace := by
    unfold TrimSpace
    have e1 : ws1 ++ scheme ++ (hi ++ [b]) ++ p ++ ws2 = ws1 ++ a :: (r ++ (p ++ ws2)) := by
      rw [← List.cons_append, ← har]; simp
    rw [e1, dropWhile_spaces_append ws1 a _ hw1 ha, ← List.cons_append, ← har]
    have e2 : scheme ++ (hi ++ [b]) ++ (p ++ ws2) = (scheme ++ hi) ++ b :: (p ++ ws2) := by simp
    rw [e2, rdropWhile_append_stop _ b _ hb]
    simp
  unfold normalizeDomain
  simp only [htrim]
  generalize (p ++ ws2).rdropWhile isSpace = T at hT
  have hT' : T = [] ∨ ∃ q, T = '/' :: q := hT
  obtain ⟨xs, hxs⟩ := Split_host (hi ++ [b]) T hh hT'
  have hfinal : ∀ d : Str, d = (hi ++ [b]) ++ T → (Split d '/').headD [] = hi ++ [b] := by
    intro d hd; rw [hd, hxs]; rfl
  apply hfinal
  rcases hs with rfl | rfl | rfl
  · rw [List.nil_append, TrimPrefix_host _ T _ hh hT' (Or.inl rfl),
      TrimPrefix_host _ T _ hh hT' (Or.inr rfl)]
  · rw [List.append_assoc, TrimPrefix_self_append, TrimPrefix_host _ T _ hh hT' (Or.inr rfl)]
  · have hnot : TrimPrefix ("https://".toList ++ (hi ++ [b]) ++ T) "http://".toList
        = "https://".toList ++ (hi ++ [b]) ++ T := by
      simp [TrimPrefix, List.isPrefixOf]
    rw [hnot, List.append_assoc, TrimPrefix_self_append]

/-- C10, the specification's example: `https://example.com/foo` gives
`example.com`. -/
theorem C10_normalizeDomain_witness :
    normalizeDomain "https://example.com/foo".toList = "example.com".toList :=
  C10_normalizeDomain [] "https://".toList "example.com".toList "/foo".toList [] (by decide)
    (by decide) (Or.inr (Or.inr rfl)) (Or.inr rfl) (by decide) (by decide)

/-! ## The whole run: termination, header feedback and total backoff (C14, C15, C17) -/

/-- One round of the loop that makes a request: either it sleeps and goes on to
the next attempt, or it ends the loop; the rate controller is adjusted from the
response in both cases. -/
theorem retryLoop_step (w : World) (config : Config) (url : Str) (fuel a : Nat) (t : Trace)
    (body : Str) (ha : a ≤ config.retries) (hreq : w.newRequest url = true) :
    (a < config.retries ∧ ∃ body2, retryLoop w config url (fuel + 1) a t body =
      retryLoop w config url fuel (a + 1)
        { client := adjustAfter w.fmul t.client (w.transport url a),
          requests := t.requests ++ [url],
          sleeps := t.sleeps ++ [backoffTime a], stdout := t.stdout } body2) ∨
    (∃ e, retryLoop w config url (fuel + 1) a t body =
      some ({ client := adjustAfter w.fmul t.client (w.transport url a),
              requests := t.requests ++ [url], sleeps := t.sleeps, stdout := t.stdout }, e)) := by
  rw [retryLoop]
  simp only [ha, hreq, if_true, Bool.not_true, Bool.false_eq_true, if_false]
  cases hres : w.transport url a with
  | err =>
    by_cases hlt : a < config.retries
    · left; exact ⟨hlt, body, by simp [hlt, adjustAfter]⟩
    · right; exact ⟨LoopExit.returned, by simp [hlt, adjustAfter]⟩
  | resp statusCode header data readErr =>
    by_cases hs : statusCode = 200
    · by_cases hre : readErr = true
      · by_cases hlt : a < config.retries
        · left; exact ⟨hlt, data, by simp [hs, hre, hlt, adjustAfter]⟩
        · right; exact ⟨LoopExit.returned, by simp [hs, hre, hlt, adjustAfter]⟩
      · right; exact ⟨LoopExit.done data, by simp [hs, hre, adjustAfter]⟩
    · by_cases hretry : a < config.retries ∧ (statusCode ≥ 500 ∨ statusCode = 429)
      · left; exact ⟨hretry.1, body, by simp [hs, hretry, adjustAfter]⟩
      · right; exact ⟨LoopExit.returned, by simp [hs, hretry, adjustAfter]⟩

/-- The loop ends, whatever the transport does: with `m` requests made from attempt
`a` on, `m - 1` sleeps between them, and the rate controller adjusted after each
response. -/
theorem retryLoop_total (w : World) (config : Config) (url : Str) :
    ∀ (fuel a : Nat) (t : Trace) (body : Str), config.retries + 1 ≤ fuel + a →
      ∃ (t1 : Trace) (e : LoopExit) (m : Nat),
        retryLoop w config url (fuel + 1) a t body = some (t1, e) ∧
        t1.requests = t.requests ++ List.replicate m url ∧
        t1.sleeps = t.sleeps ++ (List.range (m - 1)).map (fun i => backoffTime (a + i)) ∧
        t1.stdout = t.stdout ∧
        t1.client = clientAfter w url a m t.client ∧
        m ≤ config.retries + 1 - a ∧
        (a ≤ config.retries → w.newRequest url = true → 1 ≤ m) := by
  intro fuel
  induction fuel with
  | zero =>
    intro a t body hf
    have ha : ¬ a ≤ config.retries := by omega
    refine ⟨t, LoopExit.done body, 0, ?_, by simp, by simp, rfl, rfl, by omega, ?_⟩
    · rw [retryLoop]; simp [ha]
    · intro h; exact absurd h ha
  | succ fuel ih =>
    intro a t body hf
    by_cases ha : a ≤ config.retries
    · by_cases hreq : w.newRequest url = true
      · rcases retryLoop_step w config url (fuel + 1) a t body ha hreq with
          ⟨hlt, body2, hstep⟩ | ⟨e, hstop⟩
        · obtain ⟨t1, e, m, e0, e1, e2, e3, e4, e5, e6⟩ :=
            ih (a + 1) _ body2 (by omega)
          have hm : 1 ≤ m := e6 (by omega) hreq
          obtain ⟨j, rfl⟩ : ∃ j, m = j + 1 := ⟨m - 1, by omega⟩
          refine ⟨t1, e, j + 1 + 1, ?_, ?_, ?_, ?_, ?_, by omega, fun _ _ => by omega⟩
          · rw [hstep, e0]
          · rw [e1]; simp [List.replicate_succ]
          · rw [e2]
            simp only [Nat.add_sub_cancel, List.append_assoc, List.singleton_append]
            rw [List.range_succ_eq_map, List.map_cons, List.map_map]
            simp [Function.comp_def, Nat.add_assoc, Nat.add_comm 1]
          · rw [e3]
          · rw [e4]; rfl
        · refine ⟨_, e, 1, hstop, by simp, by simp, rfl, rfl, by omega, fun _ _ => by omega⟩
      · refine ⟨t, LoopExit.returned, 0, ?_, by simp, by simp, rfl, rfl, by omega, ?_⟩
        · rw [retryLoop]; simp [ha, hreq]
        · intro _ h; exact absurd h hreq
    · refine ⟨t, LoopExit.done body, 0, ?_, by simp, by simp, rfl, rfl, by omega, ?_⟩
      · rw [retryLoop]; simp [ha]
      · intro h; exact absurd h ha

/-- Processing a line that is not blank ends, whatever the transport does: all
requests are for the query URL of the normalised domain, each but the last is
followed by its backoff, and the rate controller is adjusted after each response. -/
theorem process_total (w : World) (config : Config) (client : WaybackClient) (domain : Str)
    (hdom : TrimSpace domain ≠ []) :
    ∃ t : Trace,
      processDomainWithRetries w config client domain = some t ∧
      (∀ u ∈ t.requests, u = buildCDXURL (normalizeDomain domain) config.searchType) ∧
      t.sleeps = (List.range (t.requests.length - 1)).map (fun i => backoffTime (1 + i)) ∧
      t.client = clientAfter w (buildCDXURL (normalizeDomain domain) config.searchType) 1
        t.requests.length client ∧
      t.requests.length ≤ config.retries ∧
      (1 ≤ config.retries →
        w.newRequest (buildCDXURL (normalizeDomain domain) config.searchType) = true →
        1 ≤ t.requests.length) := by
  obtain ⟨t1, e, m, e0, e1, e2, e3, e4, e5, e6⟩ :=
    retryLoop_total w config (buildCDXURL (normalizeDomain domain) config.searchType)
      config.retries 1 { client := client, requests := [], sleeps := [], stdout := [] } []
      (by omega)
  have hlen : t1.requests.length = m := by rw [e1]; simp
  have hreqs : ∀ u ∈ t1.requests, u = buildCDXURL (normalizeDomain domain) config.searchType := by
    intro u hu
    rw [e1] at hu
    simp only [List.nil_append] at hu
    exact List.eq_of_mem_replicate hu
  cases e with
  | done body =>
    refine ⟨_, process_of_done w config client domain t1 body hdom e0, hreqs, ?_, ?_, ?_, ?_⟩
    · simp [e2, hlen]
    · simp [e4, hlen]
    · simp only [hlen]; omega
    · intro h1 h2; simp only [hlen]; exact e6 h1 h2
  | returned =>
    refine ⟨_, process_of_returned w config client domain t1 hdom e0, hreqs, ?_, ?_, ?_, ?_⟩
    · simp [e2, hlen]
    · simp [e4, hlen]
    · simp only [hlen]; omega
    · intro h1 h2; simp only [hlen]; exact e6 h1 h2

/-- The rate controller after `m` attempts is the fold of `AdjustRate` over the
headers of the responses received. -/
theorem clientAfter_eq_foldl (w : World) (url : Str) (c : WaybackClient) :
    ∀ m : Nat, clientAfter w url 1 m c = (responseHeaders w url m).foldl (AdjustRate w.fmul) c := by
  intro m
  induction m with
  | zero => rfl
  | succ m ih =>
    rw [clientAfter_succ, ih]
    unfold responseHeaders
    rw [List.range_succ, List.filterMap_append, List.foldl_append,
      show 1 + m = m + 1 by omega]
    cases hres : w.transport url (m + 1) with
    | err => simp [adjustAfter, headerOf, hres]
    | resp statusCode header data readErr => simp [adjustAfter, headerOf, hres]

/-- C14: in one run of the retry loop, whatever the transport does, the rate
controller at the end is the result of applying `AdjustRate`, in attempt order, to
the headers of every response received in the attempts made, whatever its status;
attempts that fail in the transport contribute nothing. -/
theorem C14_header_feedback (w : World) (config : Config) (client : WaybackClient)
    (domain : Str) (hdom : TrimSpace domain ≠ []) :
    ∃ t : Trace,
      processDomainWithRetries w config client domain = some t ∧
      t.client = (responseHeaders w (buildCDXURL (normalizeDomain domain) config.searchType)
        t.requests.length).foldl (AdjustRate w.fmul) client := by
  obtain ⟨t, h0, _, _, h3, _, _⟩ := process_total w config client domain hdom
  exact ⟨t, h0, by rw [h3, clientAfter_eq_foldl]⟩

/-- C14, the claim's example: a 404 with `Retry-After: 10` ends processing after one
attempt and still raises the interval to 10s. -/
theorem C14_header_feedback_witness :
    (∃ t : Trace,
      processDomainWithRetries (alwaysResponse 404 (oneHeader retryAfterKey "10".toList) [])
        (plainConfig 3) NewWaybackClient "example.com".toList = some t ∧
      t.client = (responseHeaders (alwaysResponse 404 (oneHeader retryAfterKey "10".toList) [])
        (buildCDXURL (normalizeDomain "example.com".toList) (plainConfig 3).searchType)
        t.requests.length).foldl (AdjustRate fmulExact) NewWaybackClient) ∧
    (processDomainWithRetries (alwaysResponse 404 (oneHeader retryAfterKey "10".toList) [])
        (plainConfig 3) NewWaybackClient "example.com".toList).map
          (fun t => (t.requests.length, t.client.lastRate)) = some (1, 10 * Second) :=
  ⟨C14_header_feedback (alwaysResponse 404 (oneHeader retryAfterKey "10".toList) [])
      (plainConfig 3) NewWaybackClient "example.com".toList (by decide), by decide⟩

/-- C15 (amended): for every input line whose normalised domain is empty: if the
line is empty after trimming white space it is skipped (no request, no sleep, no
output); otherwise (as for `https://` or `/foo`) it is not skipped: when the retry
ceiling is at least 1 the query URL of the empty domain is built and at least one
request is made for it, and every request is for that URL. -/
theorem C15_empty_normalized_domain (w : World) (config : Config) (client : WaybackClient)
    (domain : Str) (hnorm : normalizeDomain domain = []) :
    (TrimSpace domain = [] →
      processDomainWithRetries w config client domain =
        some { client := client, requests := [], sleeps := [], stdout := [] }) ∧
    (TrimSpace domain ≠ [] → 1 ≤ config.retries →
      w.newRequest (buildCDXURL [] config.searchType) = true →
      ∃ t : Trace, processDomainWithRetries w config client domain = some t ∧
        1 ≤ t.requests.length ∧ ∀ u ∈ t.requests, u = buildCDXURL [] config.searchType) := by
  constructor
  · intro hblank
    unfold processDomainWithRetries
    simp only [hblank, if_true]
  · intro hdom hn hreq
    obtain ⟨t, h0, h1, _, _, _, h5⟩ := process_total w config client domain hdom
    rw [hnorm] at h1 h5
    exact ⟨t, h0, h5 hn hreq, h1⟩

/-- C15, an instance: the line `https://` leads to a request. -/
theorem C15_empty_normalized_domain_witness :
    ∃ t : Trace, processDomainWithRetries alwaysErr (plainConfig 3) NewWaybackClient
        "https://".toList = some t ∧
      1 ≤ t.requests.length ∧
      ∀ u ∈ t.requests, u = buildCDXURL [] (plainConfig 3).searchType :=
  (C15_empty_normalized_domain alwaysErr (plainConfig 3) NewWaybackClient "https://".toList
    (by decide)).2 (by decide) (by decide) rfl

/-- C15 as stated fails for `https://`: the normalised domain is empty, yet the query
`url=*./*` is requested and the records of the response are printed. -/
theorem C15_counterexample :
    normalizeDomain "https://".toList = [] ∧
    normalizeDomain "/foo".toList = [] ∧
    (processDomainWithRetries (alwaysStatus 200 sampleBody) (plainConfig 3) NewWaybackClient
      "https://".toList).map (fun t => (t.requests, t.stdout)) =
      some (["http://web.archive.org/cdx/search/cdx?url=*./*&output=text&fl=timestamp,original&collapse=urlkey".toList],
        ["https://web.archive.org/web/20200101000000/http://a.com/x".toList,
         "https://web.archive.org/web/20200102000000/http://a.com/y".toList]) := by
  decide

/-- The sum of the first `k` squares, in seconds. -/
theorem squareSeconds_sum (k : Nat) :
    (squareSeconds k).sum = ((k * (k + 1) * (2 * k + 1) / 6 : Nat) : Int) * Second := by
  have h6 : ∀ j : Nat, 6 * (((List.range j).map fun (i : Nat) => (i + 1) ^ 2).sum) =
      j * (j + 1) * (2 * j + 1) := by
    intro j
    induction j with
    | zero => simp
    | succ j ih =>
      rw [List.range_succ, List.map_append, List.sum_append, Nat.mul_add, ih]
      simp only [List.map_singleton, List.sum_singleton]
      ring
  have hsum : (squareSeconds k).sum =
      ((((List.range k).map fun (i : Nat) => (i + 1) ^ 2).sum : Nat) : Int) * Second := by
    unfold squareSeconds
    induction k with
    | zero => simp
    | succ k ih =>
      rw [List.range_succ, List.map_append, List.sum_append, ih, List.map_append,
        List.sum_append]
      simp only [List.map_singleton, List.sum_singleton]
      push_cast
      ring
  rw [hsum, ← h6 k, Nat.mul_div_cancel_left _ (by decide : 0 < 6)]

/-- C17 (amended): for every retry ceiling `n` and every transport behaviour, a run
of the retry loop makes `a <= n` attempts, and when `a <= 96039` its sleeps are
exactly `1^2, ..., (a-1)^2` seconds, their total is `(a-1)*a*(2a-1)/6` seconds, and
that is at most `(n-1)*n*(2n-1)/6` seconds. -/
theorem C17_total_backoff (w : World) (config : Config) (client : WaybackClient)
    (domain : Str) (hdom : TrimSpace domain ≠ []) :
    ∃ t : Trace,
      processDomainWithRetries w config client domain = some t ∧
      t.requests.length ≤ config.retries ∧
      (t.requests.length ≤ 96039 →
        t.sleeps = squareSeconds (t.requests.length - 1) ∧
        t.sleeps.sum = (((t.requests.length - 1) * t.requests.length *
          (2 * t.requests.length - 1) / 6 : Nat) : Int) * Second ∧
        t.sleeps.sum ≤ (((config.retries - 1) * config.retries *
          (2 * config.retries - 1) / 6 : Nat) : Int) * Second) := by
  obtain ⟨t, h0, _, h2, _, h4, _⟩ := process_total w config client domain hdom
  refine ⟨t, h0, h4, ?_⟩
  intro hb
  have hs : t.sleeps = squareSeconds (t.requests.length - 1) := by
    rw [h2, backoff_list_eq _ (by omega)]
  have hform : ∀ a : Nat, (a - 1) * a * (2 * a - 1) = (a - 1) * (a - 1 + 1) * (2 * (a - 1) + 1) := by
    intro a
    cases a with
    | zero => simp
    | succ a => simp only [Nat.add_sub_cancel]; congr 1
  have hsum : t.sleeps.sum = (((t.requests.length - 1) * t.requests.length *
      (2 * t.requests.length - 1) / 6 : Nat) : Int) * Second := by
    rw [hs, squareSeconds_sum, hform]
  have hle : (t.requests.length - 1) * t.requests.length * (2 * t.requests.length - 1) / 6 ≤
      (config.retries - 1) * config.retries * (2 * config.retries - 1) / 6 := by
    apply Nat.div_le_div_right
    apply Nat.mul_le_mul
    · apply Nat.mul_le_mul
      · omega
      · exact h4
    · omega
  refine ⟨hs, hsum, ?_⟩
  rw [hsum]
  exact Int.mul_le_mul_of_nonneg_right (by exact_mod_cast hle) (by decide)

/-- C17, an instance: three failed attempts sleep 1s and 4s, 5s in all. -/
theorem C17_total_backoff_witness :
    (∃ t : Trace,
      processDomainWithRetries alwaysErr (plainConfig 3) NewWaybackClient
        "example.com".toList = some t ∧
      t.requests.length ≤ (plainConfig 3).retries ∧
      (t.requests.length ≤ 96039 →
        t.sleeps = squareSeconds (t.requests.length - 1) ∧
        t.sleeps.sum = (((t.requests.length - 1) * t.requests.length *
          (2 * t.requests.length - 1) / 6 : Nat) : Int) * Second ∧
        t.sleeps.sum ≤ ((((plainConfig 3).retries - 1) * (plainConfig 3).retries *
          (2 * (plainConfig 3).retries - 1) / 6 : Nat) : Int) * Second)) ∧
    (processDomainWithRetries alwaysErr (plainConfig 3) NewWaybackClient
        "example.com".toList).map (fun t => (t.requests.length, t.sleeps, t.sleeps.sum))
      = some (3, [1 * Second, 4 * Second], 5 * Second) :=
  ⟨C17_total_backoff alwaysErr (plainConfig 3) NewWaybackClient "example.com".toList
    (by decide), by decide⟩

/-- C17 as stated fails for many attempts: with `n = 96040` and a transport that
always fails, 96040 attempts are made and the last backoff, after attempt 96039,
wraps around in 64 bits to a negative duration. -/
theorem C17_counterexample :
    ∃ t : Trace,
      processDomainWithRetries alwaysErr (plainConfig 96040) NewWaybackClient
        "example.com".toList = some t ∧
      t.requests.length = 96040 ∧
      t.sleeps ≠ squareSeconds (96040 - 1) ∧
      t.sleeps.getLast? = some (-9223254552709551616) := by
  obtain ⟨t1, e0, e1, e2, _, _⟩ :=
    retryLoop_returns_after_failures alwaysErr (plainConfig 96040)
      (buildCDXURL (normalizeDomain "example.com".toList) (plainConfig 96040).searchType)
      { client := NewWaybackClient, requests := [], sleeps := [], stdout := [] } 96039
      DoResult.err rfl (by decide) (fun i _ _ => rfl) rfl (by simp [returnsAt, plainConfig])
  refine ⟨t1, process_of_returned _ _ _ _ t1 (by decide) e0, ?_, ?_, ?_⟩
  · rw [e1, List.nil_append, List.length_replicate]
  · rw [e2, List.nil_append]
    show _ ≠ squareSeconds 96039
    unfold squareSeconds
    intro h
    have h1 := (List.map_inj_left.mp h) 96038 (List.mem_range.mpr (by decide))
    revert h1
    decide
  · rw [e2, List.nil_append, show (96039 : Nat) = 96038 + 1 from rfl, List.range_succ,
      List.map_append, List.map_singleton, List.getLast?_concat]
    decide

/-! ## Blank input (C13) -/

/-- A line of white space only is empty once trimmed. -/
theorem TrimSpace_of_spaces (s : Str) (h : ∀ c ∈ s, isSpace c = true) : TrimSpace s = [] := by
  unfold TrimSpace
  have h1 : s.dropWhile isSpace = [] := List.dropWhile_eq_nil_iff.mpr h
  rw [h1]
  rfl

/-- C13: for every input line that is empty after trimming the surrounding white
space (the empty line and the lines of white space only), processing makes no
request, does not sleep, leaves the rate controller as it was and prints nothing. -/
theorem C13_blank_input (w : World) (config : Config) (client : WaybackClient) (domain : Str)
    (hblank : TrimSpace domain = [] ∨ ∀ c ∈ domain, isSpace c = true) :
    processDomainWithRetries w config client domain =
      some { client := client, requests := [], sleeps := [], stdout := [] } := by
  have h : TrimSpace domain = [] := by
    rcases hblank with h | h
    · exact h
    · exact TrimSpace_of_spaces domain h
  unfold processDomainWithRetries
  simp only [h, if_true]

/-- C13, an instance: a line of blanks and a tab. -/
theorem C13_blank_input_witness :
    processDomainWithRetries alwaysErr (plainConfig 3) NewWaybackClient " \t ".toList =
      some { client := NewWaybackClient, requests := [], sleeps := [], stdout := [] } :=
  C13_blank_input alwaysErr (plainConfig 3) NewWaybackClient " \t ".toList
    (Or.inr (by decide))

/-! ## Headers that the rate controller ignores (C16) -/

/-- `AdjustRate` depends on the header set through its `Retry-After` and
`X-RateLimit-Remaining` values only. -/
theorem AdjustRate_congr (fmul : Nat → Nat → Nat → Nat) (w : WaybackClient) (h1 h2 : Header)
    (hra : h1.Get retryAfterKey = h2.Get retryAfterKey)
    (hrem : h1.Get remainingKey = h2.Get remainingKey) :
    AdjustRate fmul w h1 = AdjustRate fmul w h2 := by
  unfold retryAfterKey at hra
  unfold remainingKey at hrem
  unfold AdjustRate
  rw [hra, hrem]

/-- C16: for every current interval, a header set without a `Retry-After` value
and whose `X-RateLimit-Remaining` is absent or differs from `"0"` and `"1"` leaves
the rate controller unchanged; and two header sets that agree on `Retry-After` and
on `X-RateLimit-Remaining` give the same interval from the same start. -/
theorem C16_other_headers_ignored (fmul : Nat → Nat → Nat → Nat) (w : WaybackClient) :
    (∀ header : Header, header.Get retryAfterKey = [] →
      header.Get remainingKey ≠ "0".toList → header.Get remainingKey ≠ "1".toList →
      AdjustRate fmul w header = w) ∧
    (∀ h1 h2 : Header, h1.Get retryAfterKey = h2.Get retryAfterKey →
      h1.Get remainingKey = h2.Get remainingKey →
      (AdjustRate fmul w h1).lastRate = (AdjustRate fmul w h2).lastRate) := by
  constructor
  · intro header hra h0 h1
    rw [AdjustRate_of_unparsed fmul w header (Or.inl hra), if_neg (fun h => h.elim h0 h1)]
  · intro h1 h2 hra hrem
    rw [AdjustRate_congr fmul w h1 h2 hra hrem]

/-- C16, an instance: a `Content-Length` header changes nothing. -/
theorem C16_other_headers_ignored_witness :
    AdjustRate fmulExact NewWaybackClient (oneHeader "Content-Length".toList "42".toList)
      = NewWaybackClient :=
  (C16_other_headers_ignored fmulExact NewWaybackClient).1
    (oneHeader "Content-Length".toList "42".toList) (by decide) (by decide) (by decide)

/-! ## The backoff does not wrap (C18) -/

/-- C18: for every attempt number `a` with `1 <= a <= 96038`, the backoff
`time.Duration(a*a) * time.Second`, computed in signed 64-bit arithmetic, is exactly
`a^2 * 10^9` nanoseconds, is positive and is below `2^63`: nothing wraps. -/
theorem C18_backoff_does_not_wrap (a : Nat) (h1 : 1 ≤ a) (h2 : a ≤ 96038) :
    backoffTime a = ((a : Int)) ^ 2 * 10 ^ 9 ∧ 0 < backoffTime a ∧ backoffTime a < 2 ^ 63 := by
  have he := backoffTime_eq a h2
  have hs : Second = 10 ^ 9 := by decide
  have hpos : (0 : Int) < (a : Int) ^ 2 := by positivity
  have hle : (a : Int) ^ 2 ≤ 96038 ^ 2 := by
    have : (a : Int) ≤ 96038 := by exact_mod_cast h2
    exact pow_le_pow_left₀ (by positivity) this 2
  rw [he, hs]
  refine ⟨rfl, by positivity, ?_⟩
  nlinarith

/-- C18, an instance: attempt 1000, the default retry ceiling. -/
theorem C18_backoff_does_not_wrap_witness :
    backoffTime 1000 = ((1000 : Nat) : Int) ^ 2 * 10 ^ 9 ∧ 0 < backoffTime 1000 ∧
      backoffTime 1000 < 2 ^ 63 :=
  C18_backoff_does_not_wrap 1000 (by decide) (by decide)

/-! ## Unrecognised modes (C19) -/

/-- C19: for every domain `d` and every mode `m` other than `"domain"`,
`buildCDXURL d m = buildCDXURL d "wildcard"`; `buildCDXURL` is a total function to
strings, so it yields a URL for every mode and has no error result. -/
theorem C19_unrecognized_mode_is_wildcard (d m : Str) (hm : m ≠ "domain".toList) :
    buildCDXURL d m = buildCDXURL d "wildcard".toList := by
  unfold buildCDXURL
  rw [if_neg hm, if_neg (by decide)]

/-- C19, an instance: the empty mode. -/
theorem C19_unrecognized_mode_is_wildcard_witness :
    buildCDXURL "example.com".toList [] = buildCDXURL "example.com".toList "wildcard".toList :=
  C19_unrecognized_mode_is_wildcard "example.com".toList [] (by decide)

/-! ## Sensitivity-only output (C11) -/

/-- A blank line has no record. -/
theorem specRecord_of_blank (line : Str) (h : TrimSpace line = []) : specRecord line = none := by
  simp [specRecord, h]

/-- A line with two fields has them as its record. -/
theorem specRecord_of_two (line t u : Str) (hblank : TrimSpace line ≠ [])
    (h : Fields (TrimSpace line) = [t, u]) : specRecord line = some (t, u) := by
  rw [Fields_eq_specFields] at h
  simp [specRecord, hblank, h]

/-- A line whose number of fields is not two has no record. -/
theorem specRecord_of_other (line : Str) (h : (Fields (TrimSpace line)).length ≠ 2) :
    specRecord line = none := by
  rw [Fields_eq_specFields] at h
  unfold specRecord
  by_cases hblank : TrimSpace line = []
  · simp [hblank]
  · simp only [hblank, if_false]
    split
    · rename_i t u heq; rw [heq] at h; exact absurd rfl h
    · rfl

/-- With the toggle on and a classifier, the printing loop appends the output lines
of the specification under that classifier. -/
theorem emitLines_sensitive_eq (config : Config) (M : Str → Bool)
    (hon : config.onlySensitive = true) (hre : config.sensitiveRegex = some M)
    (lines : List Str) :
    ∀ out : List Str,
      emitLines config lines out = out ++ lines.filterMap (specSensitiveLine M) := by
  induction lines with
  | nil => intro out; simp [emitLines]
  | cons line rest ih =>
    intro out
    rw [emitLines, List.filterMap_cons]
    by_cases hblank : TrimSpace line = []
    · have hl : specSensitiveLine M line = none := by
        simp [specSensitiveLine, specRecord_of_blank line hblank]
      rw [hl]
      simp only [hblank, if_true]
      exact ih out
    · by_cases hlen : (Fields (TrimSpace line)).length = 2
      · obtain ⟨t, u, htu⟩ : ∃ t u, Fields (TrimSpace line) = [t, u] := by
          match hf : Fields (TrimSpace line), hlen with
          | [t, u], _ => exact ⟨t, u, rfl⟩
        have hl : specSensitiveLine M line =
            if M u then some (waybackURL t u) else none := by
          simp [specSensitiveLine, specRecord_of_two line t u hblank htu, waybackURL]
        rw [hl]
        simp only [hblank, if_false, htu, hon, hre, List.length_cons, List.length_nil, ne_eq,
          not_true_eq_false, if_true, List.getD_cons_zero, List.getD_cons_succ]
        by_cases hM : M u = true
        · simp only [hM, if_true]
          rw [ih]
          simp
        · simp only [hM, if_false, Bool.false_eq_true]
          exact ih out
      · have hl : specSensitiveLine M line = none := by
          simp [specSensitiveLine, specRecord_of_other line hlen]
        rw [hl]
        simp only [hblank, if_false, ne_eq, hlen, not_false_eq_true, if_true]
        exact ih out

/-- A `filterMap` that keeps less gives a sublist. -/
theorem filterMap_sublist_of_le {α β : Type} (f g : α → Option β)
    (h : ∀ a b, f a = some b → g a = some b) :
    ∀ l : List α, List.Sublist (l.filterMap f) (l.filterMap g) := by
  intro l
  induction l with
  | nil => exact List.Sublist.slnil
  | cons a l ih =>
    rw [List.filterMap_cons, List.filterMap_cons]
    cases hf : f a with
    | none =>
      cases hg : g a with
      | none => exact ih
      | some b => exact List.Sublist.cons b ih
    | some b =>
      rw [h a b hf]
      exact List.Sublist.cons₂ b ih

/-- A line printed under a classifier is printed, the same, without it. -/
theorem specSensitiveLine_le (M : Str → Bool) (line out : Str)
    (h : specSensitiveLine M line = some out) : specLine line = some out := by
  unfold specSensitiveLine at h
  unfold specLine
  cases hr : specRecord line with
  | none => rw [hr] at h; simp at h
  | some r =>
    rw [hr] at h
    simp only [Option.some_bind] at h
    by_cases hM : M r.2 = true
    · rw [if_pos hM] at h; simpa using h
    · rw [if_neg hM] at h; simp at h

/-- C11: with the sensitivity-only toggle on and a compiled classifier `M`, for every
response body the lines printed are exactly the playback URLs of the valid records
`(t, u)` for which `M` matches the original URL `u`, in body order; the output is a
sublist of the output for the same body with the toggle off. -/
theorem C11_sensitive_only_output (config : Config) (M : Str → Bool) (body : Str)
    (out : List Str) (hon : config.onlySensitive = true)
    (hre : config.sensitiveRegex = some M) :
    emitLines config (Split body '\n') out = out ++ specSensitiveOutput M body ∧
    List.Sublist (specSensitiveOutput M body) (specOutput body) ∧
    emitLines { config with onlySensitive := false } (Split body '\n') [] = specOutput body := by
  refine ⟨?_, ?_, ?_⟩
  · rw [emitLines_sensitive_eq config M hon hre, Split_eq_splitOn]
    rfl
  · exact filterMap_sublist_of_le _ _ (specSensitiveLine_le M) _
  · rw [emitLines_eq _ rfl, Split_eq_splitOn]
    rfl

/-- C11, an instance: of the two records of the example body, the classifier "ends
in x" keeps the first. -/
theorem C11_sensitive_only_output_witness :
    emitLines { plainConfig 3 with onlySensitive := true, sensitiveRegex := some endsInX }
        (Split sampleBody '\n') [] =
      ["https://web.archive.org/web/20200101000000/http://a.com/x".toList] :=
  ((C11_sensitive_only_output
    { plainConfig 3 with onlySensitive := true, sensitiveRegex := some endsInX } endsInX
    sampleBody [] rfl rfl).1).trans (by decide)

/-! ## The sensitive pattern (C12) -/

end Waybackurlsx
